import Mathlib

/-!
Shallow embedding of the `json-prettier` repository (Rust):
lexer (`src/lexer.rs`), parser (`src/parser.rs`), value model and public
`parse` entry point (`src/lib.rs`), error model (`src/error.rs`), and the
two renderers of the CLI binary (`src/bin/jp.rs`).

Modelling conventions, used consistently below:
* A Rust `String` is modelled by its character sequence; the lexer walks the
  input as a `List Char` (the source walks a `Peekable<Chars>`).
* A Rust panic (a `.unwrap()` on `None`/`Err`, or an out-of-range `Vec`
  index) is modelled by the `none` value of an outer `Option` layer; a
  `Result<T, E>` is modelled by `Except E T`.  So a source function of type
  `Result<T, E>` that can also panic becomes `Option (Except E T)`.
* Rust `f64` is modelled by the exact-decimal type `JNum` (value
  `mantissa · 10^exponent`), kept normalized (`10 ∤ mantissa`, and `0` is
  `⟨0, 0⟩`): `f64::from_str` is modelled as the exact value of the accepted
  numeric literal (same accepted grammar, no rounding, no infinity on
  overflow), and `{}`-`Display` as the shortest plain decimal expansion
  without an exponent.  Every finite `f64` is such an exact decimal, and on
  normalized values structural equality coincides with `f64`'s numeric
  equality, which `derive(PartialEq)` uses in the source.
-/

deriving instance DecidableEq for Except

namespace JsonPret

/-- Error enum of `src/error.rs` (`JsonPretError` wrapping `LexerError` /
`ParserError`); each variant carries only its `message` string. -/
inductive JsonPretError where
  | lexerError (message : String)
  | parserError (message : String)
deriving DecidableEq, Repr

/-- The model of `f64`: the exact decimal `mantissa · 10^exponent`. -/
structure JNum where
  mantissa : Int
  exponent : Int
deriving DecidableEq, Repr

/-- Strip factors of 10 from `m` into `e`; the first argument is recursion
fuel (any value `≥ m.natAbs` is exact). -/
def norm10_aux : Nat → Int → Int → JNum
  | 0, m, e => ⟨m, e⟩
  | fuel + 1, m, e =>
      if m = 0 then ⟨0, 0⟩
      else if m % 10 = 0 then norm10_aux fuel (m / 10) (e + 1)
      else ⟨m, e⟩

/-- Canonical form of an exact decimal: `10 ∤ mantissa`, and zero is
`⟨0, 0⟩`.  Distinct canonical forms denote distinct reals, so structural
equality on them is `f64` equality. -/
def JNum.norm (n : JNum) : JNum :=
  norm10_aux (n.mantissa.natAbs + 1) n.mantissa n.exponent

/-- A `JNum` in canonical form — exactly the values `f64` semantics can
produce in this model. -/
def JNum.normalized (n : JNum) : Prop := n.norm = n

instance (n : JNum) : Decidable n.normalized := by
  unfold JNum.normalized; infer_instance

/-- Token enum of `src/lexer.rs` (the `number` payload models `f64` as
`JNum`). -/
inductive Token where
  | string (s : String)
  | number (n : JNum)
  | bool (b : Bool)
  | null
  | whiteSpace
  | leftBrace
  | rightBrace
  | leftBracket
  | rightBracket
  | comma
  | colon
deriving DecidableEq, Repr

/-- The value model `JsonObject` of `src/lib.rs`.  The Rust
`BTreeMap<String, JsonObject>` of the `Object` variant is modelled as an
association list kept strictly sorted by key (the `BTreeMap` iteration
order); `f64` is modelled as `ℚ`. -/
inductive JsonObject where
  | string (s : String)
  | number (n : JNum)
  | bool (b : Bool)
  | null
  | array (vs : List JsonObject)
  | object (members : List (String × JsonObject))
deriving Repr

mutual
/-- Structural equality on `JsonObject` (Rust `derive(PartialEq)`), as a
boolean so that equality of parse results is decidable. -/
def jeq : JsonObject → JsonObject → Bool
  | .string s1, .string s2 => s1 == s2
  | .number n1, .number n2 => n1 == n2
  | .bool b1, .bool b2 => b1 == b2
  | .null, .null => true
  | .array v1, .array v2 => jeqList v1 v2
  | .object m1, .object m2 => jeqMembers m1 m2
  | _, _ => false
/-- Element-wise `jeq` on arrays. -/
def jeqList : List JsonObject → List JsonObject → Bool
  | [], [] => true
  | v1 :: r1, v2 :: r2 => jeq v1 v2 && jeqList r1 r2
  | _, _ => false
/-- Pair-wise `jeq` on object member lists. -/
def jeqMembers : List (String × JsonObject) → List (String × JsonObject) → Bool
  | [], [] => true
  | (k1, v1) :: r1, (k2, v2) :: r2 => k1 == k2 && jeq v1 v2 && jeqMembers r1 r2
  | _, _ => false
end

/-- `char::is_whitespace` of Rust: the Unicode `White_Space` code points. -/
def char_is_whitespace (c : Char) : Bool :=
  c.toNat ∈ ([0x09, 0x0A, 0x0B, 0x0C, 0x0D, 0x20, 0x85, 0xA0, 0x1680,
    0x2000, 0x2001, 0x2002, 0x2003, 0x2004, 0x2005, 0x2006, 0x2007, 0x2008,
    0x2009, 0x200A, 0x2028, 0x2029, 0x202F, 0x205F, 0x3000] : List Nat)

/-- The free function `is_number` of `src/lexer.rs`: whether `c` may start
(`pre = true`) or continue (`pre = false`) a number.  Rust's
`char::is_numeric` (Unicode `Number` category) is modelled on the ASCII
range as `Char.isDigit`; the only divergence is non-ASCII numeric
characters, which in the source are fed to `f64` parsing and always fail it. -/
def is_number (c : Char) (pre : Bool) : Bool :=
  if pre then c.isDigit || c ∈ (['+', '-', '.'] : List Char)
  else c.isDigit || c ∈ (['+', '-', 'e', 'E', '.'] : List Char)

/-- `char::is_ascii_hexdigit` of Rust. -/
def is_ascii_hexdigit (c : Char) : Bool :=
  c.isDigit || ('a' ≤ c && c ≤ 'f') || ('A' ≤ c && c ≤ 'F')

/-- Numeric value of a hexadecimal digit character. -/
def hex_val (c : Char) : Nat :=
  if c.isDigit then c.toNat - '0'.toNat
  else if 'a' ≤ c && c ≤ 'f' then c.toNat - 'a'.toNat + 10
  else c.toNat - 'A'.toNat + 10

/-! ### Model of `f64` parsing and display

`Lexer::parse_number` calls Rust's `str::parse::<f64>` and the renderers
print with `{}`.  These std routines are modelled here on `JNum`: parsing
accepts exactly the grammar `sign? (digits ('.' digits?)? | '.' digits)
([eE] sign? digits)?` documented for `f64::from_str` (the special spellings
`inf`/`NaN` cannot reach it here, since the lexer only collects characters
from `[0-9+-eE.]`), yielding the exact decimal value. -/

/-- Longest ASCII-digit head of a character list, plus the remainder. -/
def span_digits : List Char → List Char × List Char
  | [] => ([], [])
  | c :: rest =>
      if c.isDigit then
        let (ds, r) := span_digits rest
        (c :: ds, r)
      else ([], c :: rest)

/-- Value of a most-significant-first list of decimal digit characters. -/
def digits_val (ds : List Char) : Nat :=
  List.foldl (fun a c => a * 10 + (c.toNat - '0'.toNat)) 0 ds

/-- Parse the optional exponent suffix (`[eE] sign? digits`, then end of
input); `some e` on success, `some 0` on an empty remainder. -/
def parse_exp_part : List Char → Option Int
  | [] => some 0
  | c :: rest =>
      if c = 'e' ∨ c = 'E' then
        let (sgn, rest1) : Int × List Char :=
          match rest with
          | c2 :: t =>
              if c2 = '+' then (1, t) else if c2 = '-' then (-1, t) else (1, rest)
          | [] => (1, rest)
        let (ds, rest2) := span_digits rest1
        if ds.isEmpty then none
        else if rest2.isEmpty then some (sgn * (digits_val ds : Int)) else none
      else none

/-- Model of `str::parse::<f64>` on the character set the lexer collects:
`none` is Rust's `Err(ParseFloatError)`, `some n` the exact value, in
canonical form. -/
def parse_f64 (cs : List Char) : Option JNum :=
  let (sgn, cs1) : Int × List Char :=
    match cs with
    | c :: t =>
        if c = '+' then (1, t) else if c = '-' then (-1, t) else (1, cs)
    | [] => (1, cs)
  let (ip, cs2) := span_digits cs1
  match cs2 with
  | '.' :: r =>
      let (fp, cs3) := span_digits r
      if ip.isEmpty && fp.isEmpty then none
      else
        match parse_exp_part cs3 with
        | some e => some (JNum.norm ⟨sgn * (digits_val (ip ++ fp) : Int), e - (fp.length : Int)⟩)
        | none => none
  | _ =>
      if ip.isEmpty then none
      else
        match parse_exp_part cs2 with
        | some e => some (JNum.norm ⟨sgn * (digits_val ip : Int), e⟩)
        | none => none

/-- The character of a decimal digit (`n` taken mod 10). -/
def digit_char (n : Nat) : Char := Char.ofNat ('0'.toNat + n % 10)

/-- Decimal digit characters of a natural number, most significant first;
the first argument is recursion fuel (any value `≥ n` is exact). -/
def nat_digits_aux : Nat → Nat → List Char
  | 0, n => [digit_char n]
  | fuel + 1, n =>
      if n < 10 then [digit_char n]
      else nat_digits_aux fuel (n / 10) ++ [digit_char n]

/-- Decimal digit characters of `n`, most significant first. -/
def nat_digits (n : Nat) : List Char := nat_digits_aux n n

/-- Model of Rust's `{}`-`Display` for `f64`: sign, then the shortest plain
decimal expansion, never exponent notation (on canonical values; an
unnormalized mantissa shows its redundant digits, values no `f64` has). -/
def display_f64 (n : JNum) : List Char :=
  let sgn : List Char := if n.mantissa < 0 then ['-'] else []
  if 0 ≤ n.exponent then
    sgn ++ nat_digits n.mantissa.natAbs ++ List.replicate n.exponent.toNat '0'
  else
    let k := (-n.exponent).toNat
    let ds := nat_digits n.mantissa.natAbs
    let ds' := List.replicate (k + 1 - ds.length) '0' ++ ds
    sgn ++ (ds'.take (ds'.length - k) ++ ['.'] ++ ds'.drop (ds'.length - k))

/-! ### Lexer (`src/lexer.rs`)

The `Lexer` struct holds a `Peekable<Chars>`; here each function takes the
remaining character list and returns it alongside its result.  The
`.unwrap()` calls of the source (on `chars.next()` inside escapes and
`get_code_point`, and on the `Result`s of the sub-lexers inside
`next_token` and of `next_token` inside `lexical_analyze`) are panics,
modelled by `none`. -/

/-- `Lexer::parse_number`: greedily take the number-continuation characters
and hand them to `f64` parsing. -/
def take_number_str : List Char → List Char × List Char
  | [] => ([], [])
  | c :: rest =>
      if is_number c false then
        let (a, r) := take_number_str rest
        (c :: a, r)
      else ([], c :: rest)

/-- `Lexer::parse_number` (cannot panic; errors are `LexerError`s carrying
the `ParseFloatError` message, which is `"invalid float literal"` for every
rejected string). -/
def parse_number (cs : List Char) : Except JsonPretError Token × List Char :=
  let (ns, rest) := take_number_str cs
  match parse_f64 ns with
  | some n => (.ok (.number n), rest)
  | none => (.error (.lexerError "invalid float literal"), rest)

/-- `Lexer::get_string`: read up to `length` characters (missing characters
at end of input are silently skipped by the source's `None => {}` arm). -/
def get_string (length : Nat) (cs : List Char) : String × List Char :=
  (String.mk (cs.take length), cs.drop length)

/-- `Lexer::parse_boolean`: read 4 (`true`) or 5 (`false`) characters and
require the spelling (the source accepts either spelling for either flag,
returning `Token::Bool` of its argument). -/
def parse_boolean (b : Bool) (cs : List Char) : Except JsonPretError Token × List Char :=
  let (s, rest) := if b then get_string 4 cs else get_string 5 cs
  if s = "true" ∨ s = "false" then (.ok (.bool b), rest)
  else (.error (.lexerError ("'" ++ s ++ "' is syntactically incorrect.")), rest)

/-- `Lexer::parse_null`: read 4 characters and require `"null"`. -/
def parse_null (cs : List Char) : Except JsonPretError Token × List Char :=
  let (s, rest) := get_string 4 cs
  if s = "null" then (.ok .null, rest)
  else (.error (.lexerError ("'" ++ s ++ "' is syntactically incorrect.")), rest)

/-- Core of `Lexer::get_code_point` on the 4 characters read: non-hex
characters are filtered out (`filter_map`), the survivors parsed as a
base-16 integer; only an all-non-hex quadruple (empty string) makes
`u16::from_str_radix` fail. -/
def get_code_point_4 (c1 c2 c3 c4 : Char) : Except JsonPretError Nat :=
  let hexs := List.filter is_ascii_hexdigit [c1, c2, c3, c4]
  if hexs.isEmpty then .error (.lexerError "cannot parse integer from empty string")
  else .ok (List.foldl (fun a c => a * 16 + hex_val c) 0 hexs)

/-- `Lexer::get_code_point`: read exactly 4 characters (panicking — `none`
— if fewer remain, via `chars.next().unwrap()`). -/
def get_code_point (cs : List Char) : Option (Except JsonPretError (Nat × List Char)) :=
  match cs with
  | c1 :: c2 :: c3 :: c4 :: rest =>
      match get_code_point_4 c1 c2 c3 c4 with
      | .ok cp => some (.ok (cp, rest))
      | .error e => some (.error e)
  | _ => none

/-- UTF-16 decoding as in `String::from_utf16`: BMP code units directly,
a high surrogate followed by a low surrogate combined, anything else (a
lone surrogate) is the error case (`none`). -/
def decode_utf16 : List Nat → Option (List Char)
  | [] => some []
  | u :: rest =>
      if u < 0xD800 ∨ 0xE000 ≤ u then
        (decode_utf16 rest).map (fun cs => Char.ofNat u :: cs)
      else if u < 0xDC00 then
        match rest with
        | l :: rest2 =>
            if 0xDC00 ≤ l ∧ l < 0xE000 then
              (decode_utf16 rest2).map
                (fun cs => Char.ofNat (0x10000 + (u - 0xD800) * 0x400 + (l - 0xDC00)) :: cs)
            else none
        | [] => none
      else none

/-- `Lexer::push_utf16`: decode and flush the pending UTF-16 buffer,
returning the characters to append (`[]` for an empty buffer); a failed
decode is a `LexerError` carrying the `FromUtf16Error` display text. -/
def push_utf16 (utf16 : List Nat) : Except JsonPretError (List Char) :=
  if utf16.isEmpty then .ok []
  else
    match decode_utf16 utf16 with
    | some ds => .ok ds
    | none => .error (.lexerError "invalid utf-16: lone surrogate found")

/-- Propagate the `Err` of a `Result`, continue on `Ok` — the shape of the
source's `match … { Ok(x) => …, Err(e) => return Err(e) }` sites. -/
def except_step {α β : Type} (r : Except JsonPretError α)
    (f : α → Option (Except JsonPretError β)) : Option (Except JsonPretError β) :=
  match r with
  | .ok a => f a
  | .error e => some (.error e)

/-- Unwrap a `Result`, panicking (`none`) on `Err` — the shape of the
source's `.unwrap()` call sites. -/
def unwrap_step {α β : Type} (r : Except JsonPretError α) (f : α → Option β) : Option β :=
  match r with
  | .ok a => f a
  | .error _ => none

/-- Unwrap a `Result` that may itself have panicked. -/
def unwrap_opt_step {α β : Type} (r : Option (Except JsonPretError α))
    (f : α → Option β) : Option β :=
  match r with
  | some (.ok a) => f a
  | some (.error _) => none
  | none => none

/-- Loop of `Lexer::parse_string` after the opening quote: `utf16` is the
pending UTF-16 buffer, `acc` the accumulated output characters.  The head
character and (for an escape) the character after it are matched together;
a sole `\` at end of input is the source's `chars.next().unwrap()` panic.
End of input without a closing quote ends the loop and yields the token
with the pending buffer dropped, as in the source. -/
def parse_string_loop : List Char → List Nat → List Char →
    Option (Except JsonPretError (Token × List Char))
  | [], _, acc => some (.ok (.string (String.mk acc), []))
  | [c], utf16, acc =>
      if c = '\\' then none
      else if c = '"' then
        except_step (push_utf16 utf16)
          (fun ds => some (.ok (.string (String.mk (acc ++ ds)), [])))
      else
        except_step (push_utf16 utf16)
          (fun ds => parse_string_loop [] [] (acc ++ ds ++ [c]))
  | c :: ec :: rest2, utf16, acc =>
      if c = '\\' then
        if ec ∈ (['"', '\\', '/', 'b', 'f', 'n', 'r', 't'] : List Char) then
          except_step (push_utf16 utf16)
            (fun ds => parse_string_loop rest2 [] (acc ++ ds ++ ['\\', ec]))
        else if ec = 'u' then
          match rest2 with
          | c1 :: c2 :: c3 :: c4 :: rest3 =>
              except_step (get_code_point_4 c1 c2 c3 c4)
                (fun cp => parse_string_loop rest3 (utf16 ++ [cp]) acc)
          | _ => none
        else some (.error (.lexerError ("an unexpected escaped char " ++ ec.toString)))
      else if c = '"' then
        except_step (push_utf16 utf16)
          (fun ds => some (.ok (.string (String.mk (acc ++ ds)), ec :: rest2)))
      else
        except_step (push_utf16 utf16)
          (fun ds => parse_string_loop (ec :: rest2) [] (acc ++ ds ++ [c]))

/-- `Lexer::parse_string`: skip the opening quote, then run the loop. -/
def parse_string (cs : List Char) : Option (Except JsonPretError (Token × List Char)) :=
  parse_string_loop cs.tail [] []

/-- `Lexer::next_token`: peek one character and dispatch; `ok none` is end
of input.  The source unwraps the results of `parse_number`,
`parse_string`, `parse_boolean` and `parse_null`, so their error cases
panic (`none`) here. -/
def next_token (cs : List Char) : Option (Except JsonPretError (Option Token × List Char)) :=
  match cs with
  | [] => some (.ok (none, []))
  | c :: rest =>
      if char_is_whitespace c || c == '\n' then some (.ok (some .whiteSpace, rest))
      else if is_number c true then
        unwrap_step (parse_number (c :: rest)).1
          (fun t => some (.ok (some t, (parse_number (c :: rest)).2)))
      else if c = '{' then some (.ok (some .leftBrace, rest))
      else if c = '}' then some (.ok (some .rightBrace, rest))
      else if c = '[' then some (.ok (some .leftBracket, rest))
      else if c = ']' then some (.ok (some .rightBracket, rest))
      else if c = ',' then some (.ok (some .comma, rest))
      else if c = ':' then some (.ok (some .colon, rest))
      else if c = '"' then
        unwrap_opt_step (parse_string (c :: rest))
          (fun tr => some (.ok (some tr.1, tr.2)))
      else if c = 't' then
        unwrap_step (parse_boolean true (c :: rest)).1
          (fun t => some (.ok (some t, (parse_boolean true (c :: rest)).2)))
      else if c = 'f' then
        unwrap_step (parse_boolean false (c :: rest)).1
          (fun t => some (.ok (some t, (parse_boolean false (c :: rest)).2)))
      else if c = 'n' then
        unwrap_step (parse_null (c :: rest)).1
          (fun t => some (.ok (some t, (parse_null (c :: rest)).2)))
      else some (.error (.lexerError ("an unexpected char " ++ c.toString)))

/-- Loop of `Lexer::lexical_analyze`: `while let Some(token) =
self.next_token().unwrap()`, dropping whitespace tokens.  The unwrap turns
every lexer error into a panic, so the loop can only panic or return `ok`.
The first argument is fuel; since every token consumes at least one
character, `input length + 1` steps always suffice. -/
def lexical_analyze_loop : Nat → List Char → List Token →
    Option (Except JsonPretError (List Token))
  | 0, _, _ => none
  | fuel + 1, cs, acc =>
      unwrap_opt_step (next_token cs)
        (fun tr =>
          match tr with
          | (none, _) => some (.ok acc)
          | (some t, rest) =>
              lexical_analyze_loop fuel rest
                (match t with
                 | .whiteSpace => acc
                 | _ => acc ++ [t]))

/-- `Lexer::lexical_analyze` on an input string. -/
def lexical_analyze (s : String) : Option (Except JsonPretError (List Token)) :=
  lexical_analyze_loop (s.data.length + 1) s.data []

/-! ### The `BTreeMap<String, JsonObject>` model

A `BTreeMap` iterated in key order is an association list strictly sorted
by key; `insert` overwrites the entry of an existing key. -/

/-- The `Ord`-ordering of Rust `String` (lexicographic on UTF-8 bytes,
which coincides with lexicographic scalar-value order), as a boolean strict
order on character lists. -/
def str_lt : List Char → List Char → Bool
  | [], [] => false
  | [], _ :: _ => true
  | _ :: _, [] => false
  | c1 :: r1, c2 :: r2 =>
      if c1.toNat < c2.toNat then true
      else if c2.toNat < c1.toNat then false
      else str_lt r1 r2

/-- `BTreeMap::insert` on the sorted-association-list model. -/
def bt_insert (k : String) (v : JsonObject) :
    List (String × JsonObject) → List (String × JsonObject)
  | [] => [(k, v)]
  | (k1, v1) :: rest =>
      if str_lt k.data k1.data then (k, v) :: (k1, v1) :: rest
      else if k = k1 then (k, v) :: rest
      else (k1, v1) :: bt_insert k v rest

/-- `BTreeMap::get` on the model. -/
def bt_get (k : String) : List (String × JsonObject) → Option JsonObject
  | [] => none
  | (k1, v1) :: rest => if k = k1 then some v1 else bt_get k rest

/-- How many entries of an association list hold the key `k`. -/
def count_key (k : String) (m : List (String × JsonObject)) : Nat :=
  List.countP (fun p => p.1 == k) m

/-! ### Parser (`src/parser.rs`)

The `Parser` struct holds the token vector and a cursor index; here each
function takes the remaining token list (`peek` is `head?`, `next` pops).
The Rust functions recurse without any bound; the `Nat` argument is
recursion fuel, a modelling artifact: every recursive call strictly
decreases it, and the top-level entry point passes more fuel than any run
can consume (`parse_object`/`parse_array` advance past at least one token
per fuel step in any non-error run).  Fuel exhaustion yields `none`, which
otherwise models a panic: the only source panic in this file is the
`.unwrap()` on the recursive `self.parse()` for an object member's value. -/

/-- Rust `derive(Debug)` rendering of a token, as interpolated by the
parser's `{:?}` error messages (the `f64` payload shows `Display` text with
a forced `.0` on integers, matching Rust float `Debug`). -/
def token_debug : Token → String
  | .string s => "String(\"" ++ s ++ "\")"
  | .number n =>
      String.mk (display_f64 n) ++ (if 0 ≤ n.exponent then ".0" else "")
  | .bool b => "Bool(" ++ (if b then "true" else "false") ++ ")"
  | .null => "Null"
  | .whiteSpace => "WhiteSpace"
  | .leftBrace => "LeftBrace"
  | .rightBrace => "RightBrace"
  | .leftBracket => "LeftBracket"
  | .rightBracket => "RightBracket"
  | .comma => "Comma"
  | .colon => "Colon"

mutual
/-- `Parser::parse`: dispatch on the peeked token. -/
def parser_parse : Nat → List Token →
    Option (Except JsonPretError (JsonObject × List Token))
  | 0, _ => none
  | fuel + 1, ts =>
      match ts with
      | [] => some (.error (.parserError "a token isn't peekable"))
      | t :: rest =>
          match t with
          | .leftBrace => parse_object fuel (t :: rest)
          | .leftBracket => parse_array fuel (t :: rest)
          | .bool b => some (.ok (.bool b, rest))
          | .null => some (.ok (.null, rest))
          | .number n => some (.ok (.number n, rest))
          | .string s => some (.ok (.string s, rest))
          | _ => some (.error (.parserError
              ("token must start \x7b or [ or String or Number or Bool or Null, but start '"
                ++ token_debug t ++ "'")))
/-- `Parser::parse_array`: consume `[`, then loop. -/
def parse_array : Nat → List Token →
    Option (Except JsonPretError (JsonObject × List Token))
  | 0, _ => none
  | fuel + 1, ts =>
      match ts with
      | [] => some (.error (.parserError "a token isn't peekable"))
      | t :: rest =>
          if t = .leftBracket then parse_array_loop fuel rest []
          else some (.error (.parserError
            ("JSON Array must start [ but start " ++ token_debug t)))
/-- The `loop` of `parse_array`: parse a value, then require `,`
(continue) or `]` (stop).  Note the source enters the loop before checking
for `]`, so an empty array is not accepted. -/
def parse_array_loop : Nat → List Token → List JsonObject →
    Option (Except JsonPretError (JsonObject × List Token))
  | 0, _, _ => none
  | fuel + 1, ts, acc =>
      match parser_parse fuel ts with
      | none => none
      | some (.error e) => some (.error e)
      | some (.ok (v, ts1)) =>
          match ts1 with
          | [] => some (.error (.parserError "a token isn't peekable"))
          | t :: ts2 =>
              match t with
              | .rightBracket => some (.ok (.array (acc ++ [v]), ts2))
              | .comma => parse_array_loop fuel ts2 (acc ++ [v])
              | _ => some (.error (.parserError
                  ("a ']' or ',' is expected, but '" ++ token_debug t ++ "' is inputed")))
/-- `Parser::parse_object`: consume `{`, then loop. -/
def parse_object : Nat → List Token →
    Option (Except JsonPretError (JsonObject × List Token))
  | 0, _ => none
  | fuel + 1, ts =>
      match ts with
      | [] => some (.error (.parserError "a token isn't peekable"))
      | t :: rest =>
          if t = .leftBrace then parse_object_loop fuel rest []
          else some (.error (.parserError
            ("JSON object must start \x7b but start " ++ token_debug t)))
/-- The `loop` of `parse_object`: `}` breaks; otherwise require a
`(String, ':')` pair, recursively parse the value — whose errors the
source's `.unwrap()` turns into a panic (`none`) — insert it, then require
`,` (continue) or `}` (stop). -/
def parse_object_loop : Nat → List Token → List (String × JsonObject) →
    Option (Except JsonPretError (JsonObject × List Token))
  | 0, _, _ => none
  | fuel + 1, ts, obj =>
      match ts with
      | [] => some (.error (.parserError "a token isn't peekable"))
      | .rightBrace :: ts1 => some (.ok (.object obj, ts1))
      | t1 :: ts1 =>
          match ts1 with
          | [] => some (.error (.parserError "a token isn't peekable"))
          | t2 :: ts2 =>
              match t1, t2 with
              | .string key, .colon =>
                  match parser_parse fuel ts2 with
                  | none => none
                  | some (.error _) => none
                  | some (.ok (v, ts3)) =>
                      let obj1 := bt_insert key v obj
                      match ts3 with
                      | [] => some (.error (.parserError "a token isn't peekable"))
                      | .rightBrace :: ts4 => some (.ok (.object obj1, ts4))
                      | .comma :: ts4 => parse_object_loop fuel ts4 obj1
                      | t :: _ => some (.error (.parserError
                          ("\x7b or , is expected, but " ++ token_debug t ++ " is inputed")))
              | _, _ => some (.error (.parserError "a pair 'String(key)' and ':' is expected."))
end

/-- `Parser::new(tokens)` followed by `Parser::parse()`: the remaining
tokens after one value are left in the dropped cursor, never examined.
The fuel `2 · tokens + 2` exceeds what any run can consume. -/
def parser_parse_top (ts : List Token) : Option (Except JsonPretError JsonObject) :=
  match parser_parse (2 * ts.length + 2) ts with
  | none => none
  | some (.error e) => some (.error e)
  | some (.ok (v, _)) => some (.ok v)

/-- The public entry point `parse` of `src/lib.rs`. -/
def parse (input : String) : Option (Except JsonPretError JsonObject) :=
  match lexical_analyze input with
  | none => none
  | some (.error e) => some (.error e)
  | some (.ok tokens) => parser_parse_top tokens

/-! ### Indexed access (`impl Index` in `src/lib.rs`)

Both `index` functions return a reference or panic; the panic (absent key,
out-of-range position, wrong variant) is `none` here. -/

/-- `Index<&str> for JsonObject`: look the key up in an `Object`, panicking
(`none`) on an absent key or a non-`Object` receiver. -/
def index_str (v : JsonObject) (key : String) : Option JsonObject :=
  match v with
  | .object map => bt_get key map
  | _ => none

/-- `Index<usize> for JsonObject`: position into an `Array` (Rust `Vec`
indexing panics out of range), panicking on a non-`Array` receiver. -/
def index_usize (v : JsonObject) (idx : Nat) : Option JsonObject :=
  match v with
  | .array arr => arr.get? idx
  | _ => none

/-! ### Renderers (`src/bin/jp.rs`)

`do_minimum_output` and `do_output` print to stdout; here each returns the
printed character list.  `red`/`green`/`yellow` are the ANSI wrappers. -/

/-- `red` of `src/bin/jp.rs`. -/
def red (s : List Char) : List Char := "\x1b[31m".data ++ s ++ "\x1b[m".data

/-- `green` of `src/bin/jp.rs`. -/
def green (s : List Char) : List Char := "\x1b[32m".data ++ s ++ "\x1b[m".data

/-- `yellow` of `src/bin/jp.rs`. -/
def yellow (s : List Char) : List Char := "\x1b[33m".data ++ s ++ "\x1b[m".data

mutual
/-- `do_minimum_output`: the compact renderer. -/
def do_minimum_output : JsonObject → Bool → List Char
  | .number v, _ => display_f64 v
  | .bool v, _ => if v then "true".data else "false".data
  | .string s, color => '"' :: ((if color then green s.data else s.data) ++ ['"'])
  | .array vs, color => '[' :: (minimum_elems vs color ++ [']'])
  | .object vs, color => '{' :: (minimum_members vs color ++ ['}'])
  | .null, color => if color then red "null".data else "null".data
/-- The array element loop of `do_minimum_output` (a comma after every
element but the last). -/
def minimum_elems : List JsonObject → Bool → List Char
  | [], _ => []
  | [v], color => do_minimum_output v color
  | v :: rest, color => do_minimum_output v color ++ ',' :: minimum_elems rest color
/-- The object member loop of `do_minimum_output`. -/
def minimum_members : List (String × JsonObject) → Bool → List Char
  | [], _ => []
  | [(k, v)], color =>
      '"' :: ((if color then yellow k.data else k.data) ++ '"' :: ':' :: do_minimum_output v color)
  | (k, v) :: rest, color =>
      '"' :: ((if color then yellow k.data else k.data) ++ '"' :: ':' :: do_minimum_output v color)
        ++ ',' :: minimum_members rest color
end

/-- `format!("{:indent$}", "")`: a run of spaces. -/
def spaces (n : Nat) : List Char := List.replicate n ' '

mutual
/-- `do_output`: the indented renderer.  `special` is the source's
"already positioned" flag: a container that is itself an object member's or
array element's value opens its bracket without re-indenting. -/
def do_output : JsonObject → Bool → Nat → Bool → List Char
  | .number v, _, _, _ => display_f64 v
  | .bool v, _, _, _ => if v then "true".data else "false".data
  | .string s, color, _, _ => '"' :: ((if color then green s.data else s.data) ++ ['"'])
  | .array vs, color, indent, special =>
      (if special then ['[', '\n'] else spaces indent ++ ['[', '\n'])
        ++ output_elems vs color indent
        ++ spaces indent ++ [']']
  | .object vs, color, indent, special =>
      (if special then ['{', '\n'] else spaces indent ++ ['{', '\n'])
        ++ output_members vs color indent
        ++ spaces indent ++ ['}']
  | .null, color, _, _ => if color then red "null".data else "null".data
/-- The array element loop of `do_output`: each element is indented three
further spaces; containers recurse with `special = true`; a comma ends
every line but the last. -/
def output_elems : List JsonObject → Bool → Nat → List Char
  | [], _, _ => []
  | [v], color, indent =>
      spaces (indent + 3)
        ++ (match v with
            | .object _ | .array _ => do_output v color (indent + 3) true
            | _ => do_output v color (indent + 3) false)
        ++ ['\n']
  | v :: rest, color, indent =>
      spaces (indent + 3)
        ++ (match v with
            | .object _ | .array _ => do_output v color (indent + 3) true
            | _ => do_output v color (indent + 3) false)
        ++ ',' :: '\n' :: output_elems rest color indent
/-- The object member loop of `do_output` (`"key": ` then the value). -/
def output_members : List (String × JsonObject) → Bool → Nat → List Char
  | [], _, _ => []
  | [(k, v)], color, indent =>
      spaces (indent + 3)
        ++ '"' :: ((if color then yellow k.data else k.data) ++ '"' :: ':' :: ' ' ::
          (match v with
           | .object _ | .array _ => do_output v color (indent + 3) true
           | _ => do_output v color (indent + 3) false))
        ++ ['\n']
  | (k, v) :: rest, color, indent =>
      spaces (indent + 3)
        ++ '"' :: ((if color then yellow k.data else k.data) ++ '"' :: ':' :: ' ' ::
          (match v with
           | .object _ | .array _ => do_output v color (indent + 3) true
           | _ => do_output v color (indent + 3) false))
        ++ ',' :: '\n' :: output_members rest color indent
end

/-! ### Specification helpers

Canonical token sequence of a value and well-formedness predicates, used to
state the round-trip and ordering claims.  These are specification-side
definitions, not part of the source model. -/

mutual
/-- The token sequence whose parse is `v` (the lexer's view of the compact
rendering of `v`). -/
def tokensOf : JsonObject → List Token
  | .string s => [.string s]
  | .number n => [.number n]
  | .bool b => [.bool b]
  | .null => [.null]
  | .array vs => .leftBracket :: (tokensElems vs ++ [.rightBracket])
  | .object ms => .leftBrace :: (tokensMembers ms ++ [.rightBrace])
/-- Comma-separated element token runs. -/
def tokensElems : List JsonObject → List Token
  | [] => []
  | [v] => tokensOf v
  | v :: rest => tokensOf v ++ .comma :: tokensElems rest
/-- `key : value` member token runs, comma separated. -/
def tokensMembers : List (String × JsonObject) → List Token
  | [] => []
  | [(k, v)] => .string k :: .colon :: tokensOf v
  | (k, v) :: rest => .string k :: .colon :: (tokensOf v ++ .comma :: tokensMembers rest)
end

/-- Fold `bt_insert` over a member list, as the parser's object loop does. -/
def bt_insert_all (obj : List (String × JsonObject)) :
    List (String × JsonObject) → List (String × JsonObject)
  | [] => obj
  | (k, v) :: rest => bt_insert_all (bt_insert k v obj) rest

/-- A string the lexer reads back verbatim from inside quotes: no
backslash, no quote. -/
def safe_str (s : String) : Bool := s.data.all (fun c => c ≠ '\\' && c ≠ '"')

/-- A continuation the number lexer cannot extend into: empty, or headed
by a character outside the number-continuation set. -/
def num_boundary : List Char → Bool
  | [] => true
  | c :: _ => !is_number c false

/-- Keys strictly ascending in Rust `String` order — the invariant of the
`BTreeMap` iteration sequence. -/
def sorted_keys : List (String × JsonObject) → Bool
  | [] => true
  | [_] => true
  | (k1, _) :: (k2, v2) :: rest =>
      str_lt k1.data k2.data && sorted_keys ((k2, v2) :: rest)

mutual
/-- Every object member list inside `v` is strictly sorted by key — the
`BTreeMap` representation invariant every Rust `JsonObject` value carries
by construction. -/
def objects_sorted : JsonObject → Bool
  | .string _ => true
  | .number _ => true
  | .bool _ => true
  | .null => true
  | .array vs => objects_sortedElems vs
  | .object ms => sorted_keys ms && objects_sortedMembers ms
/-- `objects_sorted` on each array element. -/
def objects_sortedElems : List JsonObject → Bool
  | [] => true
  | v :: rest => objects_sorted v && objects_sortedElems rest
/-- `objects_sorted` on each member value. -/
def objects_sortedMembers : List (String × JsonObject) → Bool
  | [] => true
  | (_, v) :: rest => objects_sorted v && objects_sortedMembers rest
end

mutual
/-- A value whose canonical token sequence the parser accepts and returns
verbatim: every array non-empty (the parser rejects `[]`) and every object
member list strictly sorted (so re-folding it through `bt_insert`
reproduces it). -/
def parseable : JsonObject → Bool
  | .string _ => true
  | .number _ => true
  | .bool _ => true
  | .null => true
  | .array vs => !vs.isEmpty && parseableElems vs
  | .object ms => sorted_keys ms && parseableMembers ms
/-- `parseable` on each array element. -/
def parseableElems : List JsonObject → Bool
  | [] => true
  | v :: rest => parseable v && parseableElems rest
/-- `parseable` on each member value. -/
def parseableMembers : List (String × JsonObject) → Bool
  | [] => true
  | (_, v) :: rest => parseable v && parseableMembers rest
end

mutual
/-- The class of values whose compact rendering parses back to the value
itself: object member lists strictly sorted with no duplicate keys (the
`BTreeMap` type invariant), every array non-empty (the parser rejects
`[]`), every string and key free of `\` and `"` (the renderer does not
escape, and the lexer keeps escapes literal), and every number in canonical
`f64` form. -/
def good : JsonObject → Bool
  | .string s => safe_str s
  | .number n => JNum.norm n == n
  | .bool _ => true
  | .null => true
  | .array vs => !vs.isEmpty && goodElems vs
  | .object ms => sorted_keys ms && goodMembers ms
/-- `good` on each array element. -/
def goodElems : List JsonObject → Bool
  | [] => true
  | v :: rest => good v && goodElems rest
/-- `good` on each member: safe key and good value. -/
def goodMembers : List (String × JsonObject) → Bool
  | [] => true
  | (k, v) :: rest => safe_str k && good v && goodMembers rest
end

/-! ## Theorems

General lemmas about the embedding first, then one theorem per claim (with
its witness or counterexample where applicable). -/

/-- One character step of the string order. -/
theorem str_lt_cons_iff {a b : Char} {ar br : List Char} :
    str_lt (a :: ar) (b :: br) = true ↔
      a.toNat < b.toNat ∨ (a.toNat = b.toNat ∧ str_lt ar br = true) := by
  simp only [str_lt]
  by_cases h1 : a.toNat < b.toNat
  · simp [h1]
  · by_cases h2 : b.toNat < a.toNat
    · simp only [if_neg h1, if_pos h2]
      constructor
      · intro h; cases h
      · rintro (h | ⟨he, _⟩) <;> omega
    · have he : a.toNat = b.toNat := by omega
      simp [h1, h2, he]

/-- The string order is irreflexive. -/
theorem str_lt_irrefl : ∀ a : List Char, str_lt a a = false
  | [] => rfl
  | c :: r => by simp [str_lt, str_lt_irrefl r]

/-- The string order is transitive. -/
theorem str_lt_trans : ∀ (a b c : List Char),
    str_lt a b = true → str_lt b c = true → str_lt a c = true
  | [], _ :: _, _ :: _, _, _ => rfl
  | [], [], _, h, _ => by simp [str_lt] at h
  | [], _ :: _, [], _, h2 => by simp [str_lt] at h2
  | _ :: _, [], _, h, _ => by simp [str_lt] at h
  | _ :: _, _ :: _, [], _, h2 => by simp [str_lt] at h2
  | a1 :: ar, b1 :: br, c1 :: cr, h1, h2 => by
      rw [str_lt_cons_iff] at h1 h2 ⊢
      rcases h1 with h1 | ⟨e1, t1⟩ <;> rcases h2 with h2 | ⟨e2, t2⟩
      · exact Or.inl (by omega)
      · exact Or.inl (by omega)
      · exact Or.inl (by omega)
      · exact Or.inr ⟨by omega, str_lt_trans ar br cr t1 t2⟩

/-- Characters with equal scalar values are equal. -/
theorem char_toNat_inj {a b : Char} (h : a.toNat = b.toNat) : a = b :=
  Char.eq_of_val_eq (UInt32.ext h)

/-- The string order is total: two unrelated strings are equal. -/
theorem str_lt_total : ∀ (a b : List Char),
    str_lt a b = false → str_lt b a = false → a = b
  | [], [], _, _ => rfl
  | [], _ :: _, h, _ => by simp [str_lt] at h
  | _ :: _, [], _, h2 => by simp [str_lt] at h2
  | a1 :: ar, b1 :: br, h1, h2 => by
      simp only [str_lt] at h1 h2
      by_cases hab : a1.toNat < b1.toNat
      · simp [hab] at h1
      · by_cases hba : b1.toNat < a1.toNat
        · simp [hba] at h2
        · simp only [if_neg hab, if_neg hba] at h1 h2
          have : a1 = b1 := char_toNat_inj (by omega)
          rw [this, str_lt_total ar br h1 h2]

/-- Strict order on underlying data separates strings. -/
theorem str_lt_ne {a b : String} (h : str_lt a.data b.data = true) : a ≠ b := by
  intro he
  rw [he, str_lt_irrefl] at h
  cases h

/-- The tokenizer loop can only panic or return `ok`: the source unwraps
every `next_token` result, so no `Err` survives to its return value. -/
theorem lexical_analyze_loop_no_error :
    ∀ (fuel : Nat) (cs : List Char) (acc : List Token) (e : JsonPretError),
      lexical_analyze_loop fuel cs acc ≠ some (.error e)
  | 0, cs, acc, e => by simp [lexical_analyze_loop]
  | fuel + 1, cs, acc, e => by
      simp only [lexical_analyze_loop]
      rcases h : next_token cs with _ | e2 | ⟨_ | t, rest⟩
      · simp [unwrap_opt_step]
      · simp [unwrap_opt_step]
      · simp [unwrap_opt_step]
      · simpa [unwrap_opt_step] using lexical_analyze_loop_no_error fuel rest _ e

/-- C1, counterexample.  The claim says every error is returned to the
caller as an `Err` value and the operation never panics; but on the input
`"@"` the lexer's `LexerError` is `.unwrap()`ed inside `lexical_analyze`,
so `parse` panics (`none` in the model) instead of producing an `Err`. -/
theorem c1_counterexample : parse "@" = none := rfl

/-- C1 (amended): the top-level parse returns a `Result` and propagates
parser errors as `Err` (second conjunct), but no lexer error is ever
returned as `Err` — `lexical_analyze` unwraps them all into panics (first
and fourth conjuncts) — and a parse error raised while parsing an object
member's value is also unwrapped into a panic (third conjunct). -/
theorem c1_error_propagation :
    (∀ (s : String) (e : JsonPretError), lexical_analyze s ≠ some (.error e))
    ∧ parse "\x7d" = some (.error (.parserError
        "token must start \x7b or [ or String or Number or Bool or Null, but start 'RightBrace'"))
    ∧ parse "\x7b\"k\": ]\x7d" = none
    ∧ parse "@" = none :=
  ⟨fun _ e => lexical_analyze_loop_no_error _ _ _ e, rfl, rfl, rfl⟩

/-- C1, witness: the general conjunct applied at the concrete input `"@"`. -/
theorem c1_witness :
    lexical_analyze "@" ≠ some (.error (.lexerError "an unexpected char @")) :=
  c1_error_propagation.1 "@" (.lexerError "an unexpected char @")

/-- C3, counterexample.  The claim says parsing `"[]"` succeeds with an
empty `Array`; in the source, `parse_array` enters its loop before looking
for `]`, so the `]` is hit at value position and parsing fails. -/
theorem c3_counterexample : parse "[]" ≠ some (.ok (.array [])) :=
  fun h => Except.noConfusion (Option.some.inj h)

/-- C3 (amended): the implemented array grammar requires at least one
element: `"[]"` is a `ParserError` (the `]` is reported at value
position), while a non-empty array parses. -/
theorem c3_empty_array_rejected :
    parse "[]" = some (.error (.parserError
      "token must start \x7b or [ or String or Number or Bool or Null, but start 'RightBracket'"))
    ∧ parse "[null]" = some (.ok (.array [.null])) :=
  ⟨rfl, rfl⟩

/-- C4, counterexample.  The claim says any non-hex character among the 4
after `\u` fails tokenization with a `LexError`; but `get_code_point`
filters non-hex characters out, so `"\uZZ41"` tokenizes successfully to
`"A"` (code unit 0x41 from the surviving digits `41`). -/
theorem c4_counterexample :
    lexical_analyze "\"\\uZZ41\"" = some (.ok [.string "A"]) := rfl

/-- C4 (amended): after `\u` exactly 4 characters are read (the two
general conjuncts return exactly the remainder), but non-hex characters
among them are discarded rather than rejected; `u16::from_str_radix` fails
— a `LexerError` — only when all 4 are non-hex, and `next_token`'s
`.unwrap()` then turns that error into a panic (second conjunct). -/
theorem c4_hex_digits :
    (∀ cs : List Char, get_code_point ('Z' :: 'Z' :: 'Z' :: 'Z' :: cs)
        = some (.error (.lexerError "cannot parse integer from empty string")))
    ∧ lexical_analyze "\"\\uZZZZ\"" = none
    ∧ lexical_analyze "\"\\u0041x\"" = some (.ok [.string "Ax"])
    ∧ (∀ cs : List Char, get_code_point ('0' :: '0' :: '4' :: '1' :: cs)
        = some (.ok (0x41, cs))) :=
  ⟨fun _ => rfl, rfl, rfl, fun _ => rfl⟩

/-- C5: a two-character escape whose second character is one of
`" \ / b f n r t` is appended to the string body as the literal two
characters (general conjunct: the string loop with an empty UTF-16 buffer
steps from `\ec` to an output extended with `['\\', ec]`), not decoded; the
concrete conjuncts tokenize each escape. -/
theorem c5_escapes_literal :
    (∀ ec : Char, ec ∈ (['"', '\\', '/', 'b', 'f', 'n', 'r', 't'] : List Char) →
      ∀ (rest acc : List Char),
        parse_string_loop ('\\' :: ec :: rest) [] acc
          = parse_string_loop rest [] (acc ++ ['\\', ec]))
    ∧ lexical_analyze "\"a\\nb\"" = some (.ok [.string "a\\nb"])
    ∧ lexical_analyze "\"\\\"\"" = some (.ok [.string "\\\""])
    ∧ lexical_analyze "\"\\\\\"" = some (.ok [.string "\\\\"])
    ∧ lexical_analyze "\"\\/\"" = some (.ok [.string "\\/"])
    ∧ lexical_analyze "\"\\b\"" = some (.ok [.string "\\b"])
    ∧ lexical_analyze "\"\\f\"" = some (.ok [.string "\\f"])
    ∧ lexical_analyze "\"\\n\"" = some (.ok [.string "\\n"])
    ∧ lexical_analyze "\"\\r\"" = some (.ok [.string "\\r"])
    ∧ lexical_analyze "\"\\t\"" = some (.ok [.string "\\t"]) := by
  refine ⟨?_, rfl, rfl, rfl, rfl, rfl, rfl, rfl, rfl, rfl⟩
  intro ec hec rest acc
  rw [parse_string_loop.eq_def]
  simp [push_utf16, hec, except_step]

/-- C5, witness: the general conjunct applied to the escape `\n` with a
closing quote as the remainder. -/
theorem c5_witness :
    parse_string_loop ('\\' :: 'n' :: '"' :: []) [] []
      = parse_string_loop ('"' :: []) [] ['\\', 'n'] :=
  c5_escapes_literal.1 'n' (by decide) ('"' :: []) []

/-- C6: two consecutive `\uXXXX` code units forming a high/low surrogate
pair decode to the single combined Unicode scalar when the UTF-16 buffer is
flushed (general conjunct, on `decode_utf16`), and tokenizing
`"\uD83D\uDE04"` yields the one-scalar string `😄` (U+1F604). -/
theorem c6_surrogate_pair (hi lo : Nat)
    (h1 : 0xD800 ≤ hi) (h2 : hi < 0xDC00) (h3 : 0xDC00 ≤ lo) (h4 : lo < 0xE000) :
    decode_utf16 [hi, lo]
      = some [Char.ofNat (0x10000 + (hi - 0xD800) * 0x400 + (lo - 0xDC00))]
    ∧ lexical_analyze "\"\\uD83D\\uDE04\"" = some (.ok [.string "😄"]) := by
  refine ⟨?_, rfl⟩
  simp only [decode_utf16]
  rw [if_neg (by omega), if_pos h2, if_pos ⟨h3, h4⟩]
  rfl

/-- C6, witness: the theorem at the concrete pair `D83D`/`DE04`, whose
combined scalar is `😄`. -/
theorem c6_witness :
    decode_utf16 [0xD83D, 0xDE04] = some ['😄']
    ∧ lexical_analyze "\"\\uD83D\\uDE04\"" = some (.ok [.string "😄"]) := by
  have h := c6_surrogate_pair 0xD83D 0xDE04 (by decide) (by decide) (by decide) (by decide)
  exact ⟨h.1.trans (by decide), h.2⟩

/-- Inserting under a key makes lookup under it find the new value. -/
theorem bt_get_insert (k : String) (v : JsonObject) :
    ∀ m, bt_get k (bt_insert k v m) = some v
  | [] => by simp [bt_insert, bt_get]
  | (k1, v1) :: rest => by
      simp only [bt_insert]
      by_cases h1 : str_lt k.data k1.data
      · simp [h1, bt_get]
      · by_cases h2 : k = k1
        · subst h2
          simp [bt_get, str_lt_irrefl]
        · simp [h1, h2, bt_get, bt_get_insert k v rest]

/-- In a sorted member list, the head key is below every later key. -/
theorem sorted_keys_head_lt : ∀ (k1 : String) (v1 : JsonObject)
    (rest : List (String × JsonObject)),
    sorted_keys ((k1, v1) :: rest) = true →
    ∀ p ∈ rest, str_lt k1.data p.1.data = true
  | _, _, [], _, _, hp => absurd hp (List.not_mem_nil _)
  | k1, v1, (k2, v2) :: rest2, hs, p, hp => by
      rw [show sorted_keys ((k1, v1) :: (k2, v2) :: rest2)
            = (str_lt k1.data k2.data && sorted_keys ((k2, v2) :: rest2)) from rfl,
          Bool.and_eq_true] at hs
      rcases List.mem_cons.mp hp with rfl | hp2
      · exact hs.1
      · exact str_lt_trans _ _ _ hs.1 (sorted_keys_head_lt k2 v2 rest2 hs.2 p hp2)

/-- Sortedness passes to the tail. -/
theorem sorted_keys_tail : ∀ (q : String × JsonObject)
    (rest : List (String × JsonObject)),
    sorted_keys (q :: rest) = true → sorted_keys rest = true
  | _, [], _ => rfl
  | (k1, v1), (k2, v2) :: rest2, hs => by
      rw [show sorted_keys ((k1, v1) :: (k2, v2) :: rest2)
            = (str_lt k1.data k2.data && sorted_keys ((k2, v2) :: rest2)) from rfl,
          Bool.and_eq_true] at hs
      exact hs.2

/-- A key below every key of a member list occurs in it zero times. -/
theorem count_key_zero (k : String) :
    ∀ m : List (String × JsonObject),
      (∀ p ∈ m, str_lt k.data p.1.data = true) → count_key k m = 0 := by
  intro m hm
  rw [count_key, List.countP_eq_zero]
  intro p hp
  simp only [beq_iff_eq]
  exact fun he => str_lt_ne (hm p hp) he.symm

/-- One step of `count_key`. -/
theorem count_key_cons (k k2 : String) (v2 : JsonObject)
    (m : List (String × JsonObject)) :
    count_key k ((k2, v2) :: m) = count_key k m + (if k2 = k then 1 else 0) := by
  simp only [count_key, List.countP_cons]
  congr 1
  by_cases h : k2 = k <;> simp [h]

/-- Inserting under a key leaves exactly one entry of that key in a sorted
member list. -/
theorem count_key_insert (k : String) (v : JsonObject) :
    ∀ m, sorted_keys m = true → count_key k (bt_insert k v m) = 1
  | [], _ => by simp [bt_insert, count_key]
  | (k1, v1) :: rest, hs => by
      have hhead := sorted_keys_head_lt k1 v1 rest hs
      simp only [bt_insert]
      by_cases h1 : str_lt k.data k1.data
      · rw [if_pos h1]
        have hz : count_key k ((k1, v1) :: rest) = 0 := by
          refine count_key_zero k _ ?_
          intro p hp
          rcases List.mem_cons.mp hp with rfl | hp2
          · exact h1
          · exact str_lt_trans _ _ _ h1 (hhead p hp2)
        rw [count_key_cons, hz, if_pos rfl]
      · rw [if_neg h1]
        by_cases h2 : k = k1
        · rw [if_pos h2]
          have hz : count_key k rest = 0 := by
            refine count_key_zero k _ ?_
            intro p hp
            rw [h2]
            exact hhead p hp
          rw [count_key_cons, hz, if_pos rfl]
        · rw [if_neg h2]
          have hrec := count_key_insert k v rest (sorted_keys_tail _ _ hs)
          rw [count_key_cons, hrec, if_neg (fun he => h2 he.symm)]

/-- Strings with equal character data are equal. -/
theorem string_data_inj {a b : String} (h : a.data = b.data) : a = b :=
  String.ext h

/-- Cons preserves sortedness when the head key is below every key. -/
theorem sorted_keys_cons_of (k1 : String) (v1 : JsonObject) :
    ∀ l, (∀ p ∈ l, str_lt k1.data p.1.data = true) → sorted_keys l = true →
      sorted_keys ((k1, v1) :: l) = true
  | [], _, _ => rfl
  | (k2, v2) :: l2, hall, hs => by
      show (str_lt k1.data k2.data && sorted_keys ((k2, v2) :: l2)) = true
      rw [Bool.and_eq_true]
      exact ⟨hall (k2, v2) (List.mem_cons_self _ _), hs⟩

/-- An entry of an insertion is the inserted pair or an old entry. -/
theorem bt_insert_mem (k : String) (v : JsonObject) :
    ∀ m p, p ∈ bt_insert k v m → p = (k, v) ∨ p ∈ m
  | [], p, hp => by
      simp only [bt_insert] at hp
      exact Or.inl (List.mem_singleton.mp hp)
  | (k1, v1) :: rest, p, hp => by
      simp only [bt_insert] at hp
      by_cases h1 : str_lt k.data k1.data
      · rw [if_pos h1] at hp
        rcases List.mem_cons.mp hp with rfl | hp2
        · exact Or.inl rfl
        · exact Or.inr hp2
      · rw [if_neg h1] at hp
        by_cases h2 : k = k1
        · rw [if_pos h2] at hp
          rcases List.mem_cons.mp hp with rfl | hp2
          · exact Or.inl rfl
          · exact Or.inr (List.mem_cons_of_mem _ hp2)
        · rw [if_neg h2] at hp
          rcases List.mem_cons.mp hp with rfl | hp2
          · exact Or.inr (List.mem_cons_self _ _)
          · rcases bt_insert_mem k v rest p hp2 with h | h
            · exact Or.inl h
            · exact Or.inr (List.mem_cons_of_mem _ h)

/-- Insertion preserves sortedness. -/
theorem sorted_keys_insert (k : String) (v : JsonObject) :
    ∀ m, sorted_keys m = true → sorted_keys (bt_insert k v m) = true
  | [], _ => rfl
  | (k1, v1) :: rest, hs => by
      have hhead := sorted_keys_head_lt k1 v1 rest hs
      have htail := sorted_keys_tail (k1, v1) rest hs
      simp only [bt_insert]
      by_cases h1 : str_lt k.data k1.data
      · rw [if_pos h1]
        refine sorted_keys_cons_of k v _ ?_ hs
        intro p hp
        rcases List.mem_cons.mp hp with rfl | hp2
        · exact h1
        · exact str_lt_trans _ _ _ h1 (hhead p hp2)
      · rw [if_neg h1]
        by_cases h2 : k = k1
        · rw [if_pos h2]
          refine sorted_keys_cons_of k v _ ?_ htail
          intro p hp
          rw [h2]
          exact hhead p hp
        · rw [if_neg h2]
          have hk1k : str_lt k1.data k.data = true := by
            cases hb : str_lt k1.data k.data
            · exfalso
              have hf1 : str_lt k.data k1.data = false := by
                cases hb2 : str_lt k.data k1.data
                · rfl
                · exact absurd hb2 h1
              exact h2 (string_data_inj (str_lt_total _ _ hf1 hb))
            · rfl
          refine sorted_keys_cons_of k1 v1 _ ?_ (sorted_keys_insert k v rest htail)
          intro p hp
          rcases bt_insert_mem k v rest p hp with rfl | hpm
          · exact hk1k
          · exact hhead p hpm

/-- Adjacent sortedness is pairwise sortedness (the order is transitive). -/
theorem sorted_keys_iff_pairwise : ∀ m, sorted_keys m = true ↔
    List.Pairwise (fun p q : String × JsonObject => str_lt p.1.data q.1.data = true) m
  | [] => by simp [sorted_keys]
  | [(k1, v1)] => by simp [sorted_keys]
  | (k1, v1) :: (k2, v2) :: rest => by
      rw [show sorted_keys ((k1, v1) :: (k2, v2) :: rest)
            = (str_lt k1.data k2.data && sorted_keys ((k2, v2) :: rest)) from rfl,
          Bool.and_eq_true, sorted_keys_iff_pairwise ((k2, v2) :: rest)]
      constructor
      · rintro ⟨h1, h2⟩
        refine List.Pairwise.cons ?_ h2
        intro q hq
        rcases List.mem_cons.mp hq with rfl | hq2
        · exact h1
        · exact str_lt_trans _ _ _ h1 (List.rel_of_pairwise_cons h2 hq2)
      · intro hp
        cases hp with
        | cons hrel htail => exact ⟨hrel (k2, v2) (List.mem_cons_self _ _), htail⟩

/-- Inserting a key above every present key appends. -/
theorem bt_insert_append (k : String) (v : JsonObject) :
    ∀ m, (∀ p ∈ m, str_lt p.1.data k.data = true) → bt_insert k v m = m ++ [(k, v)]
  | [], _ => rfl
  | (k1, v1) :: rest, hall => by
      have h1 : str_lt k1.data k.data = true := hall (k1, v1) (List.mem_cons_self _ _)
      have hne1 : ¬str_lt k.data k1.data = true := by
        intro hlt
        have := str_lt_trans _ _ _ hlt h1
        rw [str_lt_irrefl] at this
        cases this
      have hne2 : ¬k = k1 := fun he => str_lt_ne h1 he.symm
      simp only [bt_insert, if_neg hne1, if_neg hne2]
      rw [bt_insert_append k v rest (fun p hp => hall p (List.mem_cons_of_mem _ hp))]
      simp

/-- Folding a sorted continuation into a compatible prefix concatenates:
this is how the parser's object loop reproduces a sorted member list. -/
theorem bt_insert_all_sorted :
    ∀ (ms obj : List (String × JsonObject)),
      sorted_keys (obj ++ ms) = true → bt_insert_all obj ms = obj ++ ms
  | [], obj, _ => by simp [bt_insert_all]
  | (k, v) :: rest, obj, hs => by
      simp only [bt_insert_all]
      have hp := (sorted_keys_iff_pairwise _).mp hs
      have hins : bt_insert k v obj = obj ++ [(k, v)] := by
        refine bt_insert_append k v obj ?_
        intro p hpm
        exact (List.pairwise_append.mp hp).2.2 p hpm (k, v) (List.mem_cons_self _ _)
      rw [hins, bt_insert_all_sorted rest (obj ++ [(k, v)]) (by simpa using hs)]
      simp

/-- `objects_sortedMembers` views each member value. -/
theorem objects_sortedMembers_iff : ∀ m, objects_sortedMembers m = true ↔
    ∀ p ∈ m, objects_sorted p.2 = true
  | [] => by simp [objects_sortedMembers]
  | (k1, v1) :: rest => by
      rw [show objects_sortedMembers ((k1, v1) :: rest)
            = (objects_sorted v1 && objects_sortedMembers rest) from rfl,
          Bool.and_eq_true, objects_sortedMembers_iff rest]
      constructor
      · rintro ⟨h1, h2⟩ p hp
        rcases List.mem_cons.mp hp with rfl | hp2
        · exact h1
        · exact h2 p hp2
      · intro h
        exact ⟨h (k1, v1) (List.mem_cons_self _ _),
               fun p hp => h p (List.mem_cons_of_mem _ hp)⟩

/-- Appending a sorted element keeps an element list sorted. -/
theorem objects_sortedElems_append :
    ∀ (a : List JsonObject) (v : JsonObject), objects_sortedElems a = true →
      objects_sorted v = true → objects_sortedElems (a ++ [v]) = true
  | [], v, _, hv => by
      show (objects_sorted v && objects_sortedElems []) = true
      simp [hv, objects_sortedElems]
  | x :: xs, v, ha, hv => by
      rw [show objects_sortedElems (x :: xs)
            = (objects_sorted x && objects_sortedElems xs) from rfl,
          Bool.and_eq_true] at ha
      show (objects_sorted x && objects_sortedElems (xs ++ [v])) = true
      rw [Bool.and_eq_true]
      exact ⟨ha.1, objects_sortedElems_append xs v ha.2 hv⟩

/-- Insertion of a sorted value keeps all member values sorted. -/
theorem objects_sortedMembers_insert (k : String) (v : JsonObject)
    (m : List (String × JsonObject)) (hm : objects_sortedMembers m = true)
    (hv : objects_sorted v = true) :
    objects_sortedMembers (bt_insert k v m) = true := by
  rw [objects_sortedMembers_iff]
  intro p hp
  rcases bt_insert_mem k v m p hp with rfl | hpm
  · exact hv
  · exact (objects_sortedMembers_iff m).mp hm p hpm

mutual
/-- Every value the parser produces satisfies the `BTreeMap` sortedness
invariant. -/
theorem parser_parse_sorted :
    ∀ (fuel : Nat) (ts : List Token) (v : JsonObject) (rest : List Token),
      parser_parse fuel ts = some (.ok (v, rest)) → objects_sorted v = true
  | 0, _, _, _, h => by simp [parser_parse] at h
  | fuel + 1, ts, v, rest, h => by
      cases ts with
      | nil => simp [parser_parse] at h
      | cons t ts1 =>
          cases t
          case leftBrace =>
            simp only [parser_parse] at h
            exact parse_object_sorted fuel _ v rest h
          case leftBracket =>
            simp only [parser_parse] at h
            exact parse_array_sorted fuel _ v rest h
          case string s =>
            simp only [parser_parse, Option.some.injEq, Except.ok.injEq,
              Prod.mk.injEq] at h
            obtain ⟨rfl, rfl⟩ := h
            rfl
          case number n =>
            simp only [parser_parse, Option.some.injEq, Except.ok.injEq,
              Prod.mk.injEq] at h
            obtain ⟨rfl, rfl⟩ := h
            rfl
          case bool b =>
            simp only [parser_parse, Option.some.injEq, Except.ok.injEq,
              Prod.mk.injEq] at h
            obtain ⟨rfl, rfl⟩ := h
            rfl
          case null =>
            simp only [parser_parse, Option.some.injEq, Except.ok.injEq,
              Prod.mk.injEq] at h
            obtain ⟨rfl, rfl⟩ := h
            rfl
          all_goals simp [parser_parse] at h
/-- `parse_array` results satisfy the sortedness invariant. -/
theorem parse_array_sorted :
    ∀ (fuel : Nat) (ts : List Token) (v : JsonObject) (rest : List Token),
      parse_array fuel ts = some (.ok (v, rest)) → objects_sorted v = true
  | 0, _, _, _, h => by simp [parse_array] at h
  | fuel + 1, ts, v, rest, h => by
      cases ts with
      | nil => simp [parse_array] at h
      | cons t ts1 =>
          simp only [parse_array] at h
          by_cases ht : t = .leftBracket
          · rw [if_pos ht] at h
            exact parse_array_loop_sorted fuel ts1 [] v rest rfl h
          · rw [if_neg ht] at h
            simp at h
/-- The array loop keeps the sortedness invariant through its
accumulator. -/
theorem parse_array_loop_sorted :
    ∀ (fuel : Nat) (ts : List Token) (acc : List JsonObject)
      (v : JsonObject) (rest : List Token),
      objects_sortedElems acc = true →
      parse_array_loop fuel ts acc = some (.ok (v, rest)) →
      objects_sorted v = true
  | 0, _, _, _, _, _, h => by simp [parse_array_loop] at h
  | fuel + 1, ts, acc, v, rest, hacc, h => by
      simp only [parse_array_loop] at h
      rcases hp : parser_parse fuel ts with _ | e1 | ⟨v1, ts1⟩
      · rw [hp] at h; simp at h
      · rw [hp] at h; simp at h
      · rw [hp] at h
        have hv1 : objects_sorted v1 = true := parser_parse_sorted fuel ts v1 ts1 hp
        have hacc1 : objects_sortedElems (acc ++ [v1]) = true :=
          objects_sortedElems_append acc v1 hacc hv1
        cases ts1 with
        | nil => simp at h
        | cons t2 ts2 =>
            cases t2
            case rightBracket =>
              simp only [Option.some.injEq, Except.ok.injEq, Prod.mk.injEq] at h
              obtain ⟨rfl, rfl⟩ := h
              exact hacc1
            case comma =>
              exact parse_array_loop_sorted fuel ts2 (acc ++ [v1]) v rest hacc1 h
            all_goals simp at h
/-- `parse_object` results satisfy the sortedness invariant. -/
theorem parse_object_sorted :
    ∀ (fuel : Nat) (ts : List Token) (v : JsonObject) (rest : List Token),
      parse_object fuel ts = some (.ok (v, rest)) → objects_sorted v = true
  | 0, _, _, _, h => by simp [parse_object] at h
  | fuel + 1, ts, v, rest, h => by
      cases ts with
      | nil => simp [parse_object] at h
      | cons t ts1 =>
          simp only [parse_object] at h
          by_cases ht : t = .leftBrace
          · rw [if_pos ht] at h
            exact parse_object_loop_sorted fuel ts1 [] v rest rfl rfl h
          · rw [if_neg ht] at h
            simp at h
/-- The object loop keeps both halves of the sortedness invariant through
its accumulated map. -/
theorem parse_object_loop_sorted :
    ∀ (fuel : Nat) (ts : List Token) (obj : List (String × JsonObject))
      (v : JsonObject) (rest : List Token),
      sorted_keys obj = true → objects_sortedMembers obj = true →
      parse_object_loop fuel ts obj = some (.ok (v, rest)) →
      objects_sorted v = true
  | 0, _, _, _, _, _, _, h => by simp [parse_object_loop] at h
  | fuel + 1, ts, obj, v, rest, hso, hsm, h => by
      cases ts with
      | nil => simp [parse_object_loop] at h
      | cons t1 ts1 =>
          cases t1
          case rightBrace =>
            simp only [parse_object_loop, Option.some.injEq, Except.ok.injEq,
              Prod.mk.injEq] at h
            obtain ⟨rfl, rfl⟩ := h
            show (sorted_keys obj && objects_sortedMembers obj) = true
            rw [Bool.and_eq_true]
            exact ⟨hso, hsm⟩
          case string key =>
            cases ts1 with
            | nil => simp [parse_object_loop] at h
            | cons t2 ts2 =>
                cases t2
                case colon =>
                  simp only [parse_object_loop] at h
                  rcases hp : parser_parse fuel ts2 with _ | e1 | ⟨v1, ts3⟩
                  · rw [hp] at h; simp at h
                  · rw [hp] at h; simp at h
                  · rw [hp] at h
                    have hv1 : objects_sorted v1 = true :=
                      parser_parse_sorted fuel ts2 v1 ts3 hp
                    have hso1 : sorted_keys (bt_insert key v1 obj) = true :=
                      sorted_keys_insert key v1 obj hso
                    have hsm1 : objects_sortedMembers (bt_insert key v1 obj) = true :=
                      objects_sortedMembers_insert key v1 obj hsm hv1
                    cases ts3 with
                    | nil => simp at h
                    | cons t3 ts4 =>
                        cases t3
                        case rightBrace =>
                          simp only [Option.some.injEq, Except.ok.injEq,
                            Prod.mk.injEq] at h
                          obtain ⟨rfl, rfl⟩ := h
                          show (sorted_keys (bt_insert key v1 obj)
                            && objects_sortedMembers (bt_insert key v1 obj)) = true
                          rw [Bool.and_eq_true]
                          exact ⟨hso1, hsm1⟩
                        case comma =>
                          exact parse_object_loop_sorted fuel ts4
                            (bt_insert key v1 obj) v rest hso1 hsm1 h
                        all_goals simp at h
                all_goals simp [parse_object_loop] at h
          all_goals (cases ts1 <;> simp [parse_object_loop] at h)
end

/-- C8: both renderers traverse an object's member list in storage order,
and the parser only ever produces member lists sorted by key (general
conjunct), so rendering emits members in lexicographic key order regardless
of source order; concretely, `{"b":1,"a":2}` parses with `"a"` stored
first, and both renderers emit `"a"` before `"b"`. -/
theorem c8_members_sorted :
    (∀ (fuel : Nat) (ts : List Token) (v : JsonObject) (rest : List Token),
        parser_parse fuel ts = some (.ok (v, rest)) → objects_sorted v = true)
    ∧ parse "\x7b\"b\":1,\"a\":2\x7d"
        = some (.ok (.object [("a", .number ⟨2, 0⟩), ("b", .number ⟨1, 0⟩)]))
    ∧ do_minimum_output (.object [("a", .number ⟨2, 0⟩), ("b", .number ⟨1, 0⟩)]) false
        = "\x7b\"a\":2,\"b\":1\x7d".data
    ∧ do_output (.object [("a", .number ⟨2, 0⟩), ("b", .number ⟨1, 0⟩)]) false 0 false
        = "\x7b\n   \"a\": 2,\n   \"b\": 1\n\x7d".data :=
  ⟨parser_parse_sorted, rfl, rfl, rfl⟩

/-- C8, witness: the general conjunct applied to the parse of
`{"b":1,"a":2}` (9 tokens, fuel 20 as the entry point would pass). -/
theorem c8_witness :
    objects_sorted (.object [("a", .number ⟨2, 0⟩), ("b", .number ⟨1, 0⟩)]) = true :=
  c8_members_sorted.1 20
    [.leftBrace, .string "b", .colon, .number ⟨1, 0⟩, .comma,
     .string "a", .colon, .number ⟨2, 0⟩, .rightBrace]
    (.object [("a", .number ⟨2, 0⟩), ("b", .number ⟨1, 0⟩)]) [] rfl

/-- C7: inserting a key that is already present overwrites (lookup finds
the new value and the key occurs exactly once — general conjuncts on the
`BTreeMap` model the parser's object loop folds its members through), and
parsing `{"a":1,"a":2}` yields an object with the single key `"a"` mapped
to `2`. -/
theorem c7_duplicate_keys :
    (∀ (m : List (String × JsonObject)) (k : String) (v : JsonObject),
      sorted_keys m = true →
        bt_get k (bt_insert k v m) = some v ∧ count_key k (bt_insert k v m) = 1)
    ∧ parse "\x7b\"a\":1,\"a\":2\x7d"
        = some (.ok (.object [("a", .number ⟨2, 0⟩)])) :=
  ⟨fun m k v hs => ⟨bt_get_insert k v m, count_key_insert k v m hs⟩, rfl⟩

/-- C7, witness: the general conjunct at the singleton map `a ↦ 1`,
overwritten with `a ↦ 2`. -/
theorem c7_witness :
    bt_get "a" (bt_insert "a" (.number ⟨2, 0⟩) [("a", .number ⟨1, 0⟩)])
        = some (.number ⟨2, 0⟩)
    ∧ count_key "a" (bt_insert "a" (.number ⟨2, 0⟩) [("a", .number ⟨1, 0⟩)]) = 1 :=
  c7_duplicate_keys.1 [("a", .number ⟨1, 0⟩)] "a" (.number ⟨2, 0⟩) rfl

/-- C10: indexed access is partial — each of the four failure shapes of the
two `Index` impls panics (`none` in the model): string-indexing an object
without the key, string-indexing a non-object, position-indexing an array
out of range, position-indexing a non-array. -/
theorem c10_index_panics :
    (∀ (m : List (String × JsonObject)) (key : String),
      bt_get key m = none → index_str (.object m) key = none)
    ∧ (∀ (v : JsonObject) (key : String),
      (∀ m, v ≠ .object m) → index_str v key = none)
    ∧ (∀ (a : List JsonObject) (i : Nat),
      a.length ≤ i → index_usize (.array a) i = none)
    ∧ (∀ (v : JsonObject) (i : Nat),
      (∀ a, v ≠ .array a) → index_usize v i = none) := by
  refine ⟨fun m key h => h, ?_, ?_, ?_⟩
  · intro v key hv
    cases v with
    | object m => exact absurd rfl (hv m)
    | string s => rfl
    | number n => rfl
    | bool b => rfl
    | null => rfl
    | array a => rfl
  · intro a i h
    simp only [index_usize, List.get?_eq_none]
    exact h
  · intro v i hv
    cases v with
    | array a => exact absurd rfl (hv a)
    | string s => rfl
    | number n => rfl
    | bool b => rfl
    | null => rfl
    | object m => rfl

/-- C10, witness: the four conjuncts at concrete inputs — an object
without the key `"k"`, a `null` receiver for string indexing, an empty
array at position 0, and a `null` receiver for position indexing. -/
theorem c10_witness :
    index_str (.object [("a", .null)]) "k" = none
    ∧ index_str .null "k" = none
    ∧ index_usize (.array [.null]) 3 = none
    ∧ index_usize .null 0 = none :=
  ⟨c10_index_panics.1 [("a", .null)] "k" rfl,
   c10_index_panics.2.1 .null "k" (fun m h => JsonObject.noConfusion h),
   c10_index_panics.2.2.1 [.null] 3 (by decide),
   c10_index_panics.2.2.2 .null 0 (fun a h => JsonObject.noConfusion h)⟩

/-- Every value's token sequence is non-empty. -/
theorem tokensOf_length_pos : ∀ v : JsonObject, 1 ≤ (tokensOf v).length := by
  intro v
  cases v <;> simp [tokensOf]

mutual
/-- The parser, fed the canonical token sequence of a parseable value
followed by anything, returns exactly that value and the remainder. -/
theorem parse_tokens_val :
    ∀ (v : JsonObject) (fuel : Nat) (rest : List Token),
      parseable v = true → 2 * (tokensOf v).length ≤ fuel →
      parser_parse fuel (tokensOf v ++ rest) = some (.ok (v, rest))
  | .string s, fuel, rest, _, hf => by
      cases fuel with
      | zero => simp [tokensOf] at hf
      | succ f => rfl
  | .number n, fuel, rest, _, hf => by
      cases fuel with
      | zero => simp [tokensOf] at hf
      | succ f => rfl
  | .bool b, fuel, rest, _, hf => by
      cases fuel with
      | zero => simp [tokensOf] at hf
      | succ f => rfl
  | .null, fuel, rest, _, hf => by
      cases fuel with
      | zero => simp [tokensOf] at hf
      | succ f => rfl
  | .array vs, fuel, rest, hp, hf => by
      cases vs with
      | nil => simp [parseable] at hp
      | cons v1 vs1 =>
          rw [show parseable (.array (v1 :: vs1))
                = (!(v1 :: vs1).isEmpty && parseableElems (v1 :: vs1)) from rfl,
              Bool.and_eq_true] at hp
          have hlen : (tokensOf (.array (v1 :: vs1))).length
              = (tokensElems (v1 :: vs1)).length + 2 := by
            simp [tokensOf]
          rw [hlen] at hf
          match fuel, hf with
          | f + 2, hf =>
            have harr : tokensOf (.array (v1 :: vs1)) ++ rest
                = .leftBracket :: (tokensElems (v1 :: vs1) ++ .rightBracket :: rest) := by
              simp [tokensOf]
            rw [harr]
            show parse_array (f + 1) (.leftBracket :: (tokensElems (v1 :: vs1)
              ++ .rightBracket :: rest)) = some (.ok (.array (v1 :: vs1), rest))
            rw [show parse_array (f + 1) (.leftBracket :: (tokensElems (v1 :: vs1)
                  ++ .rightBracket :: rest))
                = parse_array_loop f (tokensElems (v1 :: vs1) ++ .rightBracket :: rest) []
              from by simp [parse_array]]
            rw [parse_tokens_elems v1 vs1 f rest [] hp.2 (by omega)]
            simp
  | .object ms, fuel, rest, hp, hf => by
      cases ms with
      | nil =>
          have hlen : (tokensOf (.object [])).length = 2 := rfl
          rw [hlen] at hf
          match fuel, hf with
          | f + 3, _ => rfl
      | cons kv ms1 =>
          rw [show parseable (.object (kv :: ms1))
                = (sorted_keys (kv :: ms1) && parseableMembers (kv :: ms1)) from rfl,
              Bool.and_eq_true] at hp
          have hlen : (tokensOf (.object (kv :: ms1))).length
              = (tokensMembers (kv :: ms1)).length + 2 := by
            simp [tokensOf]
          rw [hlen] at hf
          match fuel, hf with
          | f + 2, hf =>
            have hobj : tokensOf (.object (kv :: ms1)) ++ rest
                = .leftBrace :: (tokensMembers (kv :: ms1) ++ .rightBrace :: rest) := by
              simp [tokensOf]
            rw [hobj]
            show parse_object (f + 1) (.leftBrace :: (tokensMembers (kv :: ms1)
              ++ .rightBrace :: rest)) = some (.ok (.object (kv :: ms1), rest))
            rw [show parse_object (f + 1) (.leftBrace :: (tokensMembers (kv :: ms1)
                  ++ .rightBrace :: rest))
                = parse_object_loop f (tokensMembers (kv :: ms1) ++ .rightBrace :: rest) []
              from by simp [parse_object]]
            rw [parse_tokens_members kv ms1 f rest [] hp.2 (by omega)]
            rw [bt_insert_all_sorted (kv :: ms1) [] hp.1]
            simp
termination_by v _ _ _ _ => sizeOf v
/-- The array loop, fed comma-separated canonical element tokens closed by
`]`, appends the elements to its accumulator. -/
theorem parse_tokens_elems :
    ∀ (v1 : JsonObject) (vs : List JsonObject) (fuel : Nat) (rest : List Token)
      (acc : List JsonObject),
      parseableElems (v1 :: vs) = true →
      2 * (tokensElems (v1 :: vs)).length + 2 ≤ fuel →
      parse_array_loop fuel (tokensElems (v1 :: vs) ++ .rightBracket :: rest) acc
        = some (.ok (.array (acc ++ v1 :: vs), rest))
  | v1, [], fuel, rest, acc, hp, hf => by
      rw [show parseableElems [v1] = (parseable v1 && parseableElems []) from rfl,
          Bool.and_eq_true] at hp
      cases fuel with
      | zero => omega
      | succ f =>
          simp only [parse_array_loop]
          rw [show tokensElems [v1] = tokensOf v1 from rfl] at hf ⊢
          rw [parse_tokens_val v1 f (.rightBracket :: rest) hp.1 (by omega)]
  | v1, v2 :: vs2, fuel, rest, acc, hp, hf => by
      rw [show parseableElems (v1 :: v2 :: vs2)
            = (parseable v1 && parseableElems (v2 :: vs2)) from rfl,
          Bool.and_eq_true] at hp
      have hv1 := tokensOf_length_pos v1
      have hlen : (tokensElems (v1 :: v2 :: vs2)).length
          = (tokensOf v1).length + 1 + (tokensElems (v2 :: vs2)).length := by
        simp [tokensElems]
        omega
      cases fuel with
      | zero => omega
      | succ f =>
          simp only [parse_array_loop]
          have harr : tokensElems (v1 :: v2 :: vs2) ++ .rightBracket :: rest
              = tokensOf v1
                ++ (.comma :: (tokensElems (v2 :: vs2) ++ .rightBracket :: rest)) := by
            simp [tokensElems]
          rw [harr, parse_tokens_val v1 f _ hp.1 (by omega)]
          show parse_array_loop f (tokensElems (v2 :: vs2) ++ .rightBracket :: rest)
              (acc ++ [v1]) = some (.ok (.array (acc ++ v1 :: v2 :: vs2), rest))
          rw [parse_tokens_elems v2 vs2 f rest (acc ++ [v1]) hp.2 (by omega)]
          simp
termination_by v1 vs _ _ _ _ _ => sizeOf v1 + sizeOf vs
/-- The object loop, fed canonical member tokens closed by `}`, folds the
members into its accumulated map through `bt_insert`. -/
theorem parse_tokens_members :
    ∀ (kv : String × JsonObject) (ms : List (String × JsonObject)) (fuel : Nat)
      (rest : List Token) (obj : List (String × JsonObject)),
      parseableMembers (kv :: ms) = true →
      2 * (tokensMembers (kv :: ms)).length + 2 ≤ fuel →
      parse_object_loop fuel (tokensMembers (kv :: ms) ++ .rightBrace :: rest) obj
        = some (.ok (.object (bt_insert_all obj (kv :: ms)), rest))
  | (k, v1), [], fuel, rest, obj, hp, hf => by
      rw [show parseableMembers [(k, v1)] = (parseable v1 && parseableMembers []) from rfl,
          Bool.and_eq_true] at hp
      have hlen : (tokensMembers [(k, v1)]).length = (tokensOf v1).length + 2 := by
        simp [tokensMembers]
      cases fuel with
      | zero => omega
      | succ f =>
          show parse_object_loop (f + 1)
              (.string k :: .colon :: (tokensOf v1 ++ .rightBrace :: rest)) obj
            = some (.ok (.object (bt_insert_all obj [(k, v1)]), rest))
          simp only [parse_object_loop]
          rw [parse_tokens_val v1 f (.rightBrace :: rest) hp.1 (by omega)]
          rfl
  | (k, v1), kv2 :: ms2, fuel, rest, obj, hp, hf => by
      rw [show parseableMembers ((k, v1) :: kv2 :: ms2)
            = (parseable v1 && parseableMembers (kv2 :: ms2)) from rfl,
          Bool.and_eq_true] at hp
      have hv1 := tokensOf_length_pos v1
      have hlen : (tokensMembers ((k, v1) :: kv2 :: ms2)).length
          = (tokensOf v1).length + 3 + (tokensMembers (kv2 :: ms2)).length := by
        simp [tokensMembers]
        omega
      cases fuel with
      | zero => omega
      | succ f =>
          have hobj : tokensMembers ((k, v1) :: kv2 :: ms2) ++ .rightBrace :: rest
              = .string k :: .colon :: (tokensOf v1
                ++ (.comma :: (tokensMembers (kv2 :: ms2) ++ .rightBrace :: rest))) := by
            simp [tokensMembers]
          rw [hobj]
          simp only [parse_object_loop]
          rw [parse_tokens_val v1 f _ hp.1 (by omega)]
          show parse_object_loop f (tokensMembers (kv2 :: ms2) ++ .rightBrace :: rest)
              (bt_insert k v1 obj)
            = some (.ok (.object (bt_insert_all obj ((k, v1) :: kv2 :: ms2)), rest))
          rw [parse_tokens_members kv2 ms2 f rest (bt_insert k v1 obj) hp.2 (by omega)]
          rfl
termination_by kv ms _ _ _ _ _ => sizeOf kv + sizeOf ms
end

/-- C9: the top-level parse does not require the token stream to be
exhausted — after one complete value the cursor's remaining tokens are
silently dropped (general conjunct, for any parseable value's token
sequence followed by any trailing tokens), and concretely `"1 2"` parses to
`Ok(1.0)` ignoring the `2`. -/
theorem c9_trailing_ignored :
    (∀ (v : JsonObject) (rest : List Token), parseable v = true →
        parser_parse_top (tokensOf v ++ rest) = some (.ok v))
    ∧ parse "1 2" = some (.ok (.number ⟨1, 0⟩)) := by
  refine ⟨?_, rfl⟩
  intro v rest hp
  unfold parser_parse_top
  rw [parse_tokens_val v (2 * (tokensOf v ++ rest).length + 2) rest hp
    (by simp only [List.length_append]; omega)]

/-- C9, witness: the general conjunct at the token sequence of `"1 2"` —
one number followed by a trailing number token. -/
theorem c9_witness :
    parser_parse_top [.number ⟨1, 0⟩, .number ⟨2, 0⟩] = some (.ok (.number ⟨1, 0⟩)) :=
  c9_trailing_ignored.1 (.number ⟨1, 0⟩) [.number ⟨2, 0⟩] rfl

/-! ### Digit and number-display lemmas, towards the round trip -/

/-- Scalar bounds of a decimal digit character. -/
theorem isDigit_toNat {c : Char} (h : c.isDigit = true) :
    48 ≤ c.toNat ∧ c.toNat ≤ 57 := by
  simp only [Char.isDigit, Bool.and_eq_true, decide_eq_true_eq] at h
  exact h

/-- A digit character differs from any non-digit character. -/
theorem isDigit_ne {c : Char} (h : c.isDigit = true) (d : Char)
    (hd : d.isDigit = false) : c ≠ d := by
  intro he
  subst he
  rw [h] at hd
  cases hd

/-- Digits start and continue numbers. -/
theorem isDigit_is_number {c : Char} (h : c.isDigit = true) (pre : Bool) :
    is_number c pre = true := by
  cases pre <;> simp [is_number, h]

/-- Digits are not whitespace (and not the newline the lexer also checks). -/
theorem isDigit_not_ws {c : Char} (h : c.isDigit = true) :
    char_is_whitespace c = false ∧ (c == '\n') = false := by
  obtain ⟨h1, h2⟩ := isDigit_toNat h
  constructor
  · simp only [char_is_whitespace, List.mem_cons, List.not_mem_nil, or_false,
      decide_eq_false_iff_not]
    omega
  · rw [beq_eq_false_iff_ne]
    exact isDigit_ne h '\n' (by decide)

/-- The produced character of `digit_char` and its value. -/
theorem digit_char_cases (n : Nat) :
    (digit_char n).isDigit = true ∧ (digit_char n).toNat = 48 + n % 10 := by
  unfold digit_char
  have h : n % 10 < 10 := Nat.mod_lt _ (by omega)
  set r := n % 10 with hr
  clear_value r
  interval_cases r <;> exact ⟨by decide, by decide⟩

/-- Every character `nat_digits_aux` emits is a digit. -/
theorem nat_digits_aux_digits : ∀ (fuel n : Nat), ∀ c ∈ nat_digits_aux fuel n,
    c.isDigit = true
  | 0, n => by
      intro c hc
      simp [nat_digits_aux] at hc
      subst hc
      exact (digit_char_cases n).1
  | fuel + 1, n => by
      intro c hc
      by_cases h : n < 10
      · simp [nat_digits_aux, h] at hc
        subst hc
        exact (digit_char_cases n).1
      · simp only [nat_digits_aux, if_neg h] at hc
        rcases List.mem_append.mp hc with h2 | h2
        · exact nat_digits_aux_digits fuel (n / 10) c h2
        · simp at h2
          subst h2
          exact (digit_char_cases n).1

/-- A digit run is never empty. -/
theorem nat_digits_aux_ne_nil (fuel n : Nat) : nat_digits_aux fuel n ≠ [] := by
  cases fuel with
  | zero => simp [nat_digits_aux]
  | succ f => by_cases h : n < 10 <;> simp [nat_digits_aux, h]

/-- Folding the digit-value step from an arbitrary seed. -/
theorem digits_val_from : ∀ (ds : List Char) (i : Nat),
    List.foldl (fun a c => a * 10 + (c.toNat - '0'.toNat)) i ds
      = i * 10 ^ ds.length + digits_val ds
  | [], i => by simp [digits_val]
  | c :: rest, i => by
      simp only [List.foldl_cons, digits_val]
      rw [digits_val_from rest (i * 10 + (c.toNat - '0'.toNat)),
          digits_val_from rest (0 * 10 + (c.toNat - '0'.toNat))]
      simp [List.length_cons, pow_succ]
      ring

/-- Value of a concatenation of digit runs. -/
theorem digits_val_append (a b : List Char) :
    digits_val (a ++ b) = digits_val a * 10 ^ b.length + digits_val b := by
  rw [digits_val, List.foldl_append]
  exact digits_val_from b _

/-- A run of zeros has value zero. -/
theorem digits_val_zeros : ∀ k : Nat, digits_val (List.replicate k '0') = 0
  | 0 => rfl
  | k + 1 => by
      rw [List.replicate_succ, digits_val, List.foldl_cons]
      show List.foldl _ (0 * 10 + ('0'.toNat - '0'.toNat)) _ = 0
      rw [digits_val_from]
      simp [digits_val_zeros k]

/-- The digit run of `n` evaluates back to `n` (with fuel `≥ n`). -/
theorem digits_val_nat_digits : ∀ (fuel n : Nat), n ≤ fuel →
    digits_val (nat_digits_aux fuel n) = n
  | 0, n, h => by
      have hn : n = 0 := by omega
      subst hn
      show digits_val [digit_char 0] = 0
      rw [digits_val, List.foldl_cons]
      simp [(digit_char_cases 0).2, digits_val]
  | fuel + 1, n, h => by
      by_cases h10 : n < 10
      · simp only [nat_digits_aux, if_pos h10]
        rw [digits_val, List.foldl_cons]
        simp [(digit_char_cases n).2, digits_val]
        omega
      · simp only [nat_digits_aux, if_neg h10]
        rw [digits_val_append,
            digits_val_nat_digits fuel (n / 10) (by omega)]
        rw [digits_val, List.foldl_cons]
        simp [(digit_char_cases n).2, digits_val]
        omega

/-- A digit run headed by a digit character. -/
theorem nat_digits_aux_cons (fuel n : Nat) :
    ∃ c t, nat_digits_aux fuel n = c :: t ∧ c.isDigit = true := by
  rcases hd : nat_digits_aux fuel n with _ | ⟨c, t⟩
  · exact absurd hd (nat_digits_aux_ne_nil fuel n)
  · exact ⟨c, t, rfl, nat_digits_aux_digits fuel n c (hd ▸ List.mem_cons_self _ _)⟩

/-- `span_digits` does not start at a non-digit. -/
theorem span_digits_not_digit {c : Char} (h : c.isDigit = false) (rest : List Char) :
    span_digits (c :: rest) = ([], c :: rest) := by
  simp [span_digits, h]

/-- `span_digits` consumes exactly a leading digit run. -/
theorem span_digits_append : ∀ (ds : List Char), (∀ c ∈ ds, c.isDigit = true) →
    ∀ rest : List Char, span_digits rest = ([], rest) →
    span_digits (ds ++ rest) = (ds, rest)
  | [], _, rest, hr => by simpa using hr
  | c :: t, hds, rest, hr => by
      have hc := hds c (List.mem_cons_self _ _)
      simp [span_digits, hc,
        span_digits_append t (fun x hx => hds x (List.mem_cons_of_mem _ hx)) rest hr]

/-- `take_number_str` does not start outside the continuation set. -/
theorem take_number_str_stop {cs : List Char} (h : num_boundary cs = true) :
    take_number_str cs = ([], cs) := by
  cases cs with
  | nil => rfl
  | cons c rest =>
      simp only [num_boundary, Bool.not_eq_true'] at h
      simp [take_number_str, h]

/-- `take_number_str` consumes exactly a run of continuation characters. -/
theorem take_number_str_append : ∀ (ds : List Char),
    (∀ c ∈ ds, is_number c false = true) →
    ∀ rest : List Char, num_boundary rest = true →
    take_number_str (ds ++ rest) = (ds, rest)
  | [], _, rest, hr => by simpa using take_number_str_stop hr
  | c :: t, hds, rest, hr => by
      have hc := hds c (List.mem_cons_self _ _)
      simp [take_number_str, hc,
        take_number_str_append t (fun x hx => hds x (List.mem_cons_of_mem _ hx)) rest hr]

/-- A mantissa not divisible by ten is already canonical, whatever the
fuel. -/
theorem norm10_aux_not_dvd : ∀ (fuel : Nat) (m e : Int), m % 10 ≠ 0 →
    norm10_aux fuel m e = ⟨m, e⟩
  | 0, m, e, _ => rfl
  | fuel + 1, m, e, h => by
      have hm : m ≠ 0 := by omega
      simp [norm10_aux, hm, h]

/-- Canonical forms are fixed by `norm`. -/
theorem norm_self {m e : Int} (h : m % 10 ≠ 0) : JNum.norm ⟨m, e⟩ = ⟨m, e⟩ :=
  norm10_aux_not_dvd _ m e h

/-- Stripping never lowers the exponent of a non-zero mantissa. -/
theorem norm10_aux_exp_ge : ∀ (fuel : Nat) (m e : Int), m ≠ 0 →
    e ≤ (norm10_aux fuel m e).exponent
  | 0, _, _, _ => le_refl _
  | fuel + 1, m, e, hm => by
      by_cases hd : m % 10 = 0
      · simp only [norm10_aux, if_neg hm, if_pos hd]
        have hq : m / 10 ≠ 0 := by omega
        have := norm10_aux_exp_ge fuel (m / 10) (e + 1) hq
        omega
      · simp [norm10_aux, hm, hd]

/-- What a fixed point of `norm` looks like: zero (with exponent zero) or a
mantissa not divisible by ten. -/
theorem norm_spec : ∀ n : JNum, JNum.norm n = n →
    (n.mantissa = 0 ∧ n.exponent = 0) ∨ n.mantissa % 10 ≠ 0 := by
  rintro ⟨m, e⟩ h
  by_cases hm : m = 0
  · subst hm
    have h0 : JNum.norm ⟨0, e⟩ = ⟨0, 0⟩ := rfl
    rw [h0] at h
    injection h with h1 h2
    exact Or.inl ⟨rfl, h2.symm⟩
  · by_cases hd : m % 10 = 0
    · exfalso
      have hstep : JNum.norm ⟨m, e⟩ = norm10_aux m.natAbs (m / 10) (e + 1) := by
        show norm10_aux (m.natAbs + 1) m e = _
        rw [norm10_aux, if_neg hm, if_pos hd]
      have hq : m / 10 ≠ 0 := by omega
      have hge := norm10_aux_exp_ge m.natAbs (m / 10) (e + 1) hq
      rw [hstep] at h
      rw [h] at hge
      simp at hge
    · exact Or.inr hd

/-- `norm10_aux` ignores its fuel beyond `|m|`. -/
theorem norm10_aux_congr : ∀ (f1 f2 : Nat) (m e : Int),
    m.natAbs < f1 → m.natAbs < f2 → norm10_aux f1 m e = norm10_aux f2 m e
  | 0, _, m, _, h1, _ => by omega
  | _ + 1, 0, m, _, _, h2 => by omega
  | f1 + 1, f2 + 1, m, e, h1, h2 => by
      by_cases hm : m = 0
      · simp [norm10_aux, hm]
      · by_cases hd : m % 10 = 0
        · simp only [norm10_aux, if_neg hm, if_pos hd]
          exact norm10_aux_congr f1 f2 (m / 10) (e + 1) (by omega) (by omega)
        · simp [norm10_aux, hm, hd]

/-- Normalizing `m · 10^k` recovers the exponent, for canonical `m`. -/
theorem norm_strip : ∀ (k : Nat) (m e : Int), m % 10 ≠ 0 →
    JNum.norm ⟨m * 10 ^ k, e⟩ = ⟨m, e + k⟩
  | 0, m, e, h => by
      simp only [pow_zero, mul_one]
      rw [norm_self h]
      simp
  | k + 1, m, e, h => by
      have hm : m ≠ 0 := by omega
      have hm10 : m * 10 ^ (k + 1) ≠ 0 := by positivity
      have heq1 : m * 10 ^ (k + 1) = (m * 10 ^ k) * 10 := by ring
      have hmd : (m * 10 ^ (k + 1)) % 10 = 0 := by omega
      have hdiv : (m * 10 ^ (k + 1)) / 10 = m * 10 ^ k := by
        rw [heq1, Int.mul_ediv_cancel _ (by norm_num)]
      have hlt1 : (m * 10 ^ k).natAbs < (m * 10 ^ (k + 1)).natAbs := by
        rw [Int.natAbs_mul, Int.natAbs_mul, Int.natAbs_pow, Int.natAbs_pow]
        have hma : 0 < m.natAbs := by omega
        have hp : (10 : Int).natAbs = 10 := rfl
        rw [hp]
        have hpow : (10 : Nat) ^ k < 10 ^ (k + 1) :=
          Nat.pow_lt_pow_right (by norm_num) (Nat.lt_succ_self k)
        exact mul_lt_mul_of_pos_left hpow hma
      have hstep : JNum.norm ⟨m * 10 ^ (k + 1), e⟩
          = norm10_aux (m * 10 ^ (k + 1)).natAbs (m * 10 ^ k) (e + 1) := by
        show norm10_aux ((m * 10 ^ (k + 1)).natAbs + 1) (m * 10 ^ (k + 1)) e = _
        rw [norm10_aux, if_neg hm10, if_pos hmd, hdiv]
      rw [hstep,
          norm10_aux_congr ((m * 10 ^ (k + 1)).natAbs) ((m * 10 ^ k).natAbs + 1)
            (m * 10 ^ k) (e + 1) hlt1 (by omega),
          show norm10_aux ((m * 10 ^ k).natAbs + 1) (m * 10 ^ k) (e + 1)
            = JNum.norm ⟨m * 10 ^ k, e + 1⟩ from rfl,
          norm_strip k m (e + 1) h]
      congr 1
      push_cast
      ring

/-- The digit run of `n` evaluates back to `n`. -/
theorem digits_val_nat_digits_self (n : Nat) : digits_val (nat_digits n) = n :=
  digits_val_nat_digits n n (le_refl n)

/-- `span_digits` consumes an all-digit list entirely. -/
theorem span_digits_all (ds : List Char) (h : ∀ c ∈ ds, c.isDigit = true) :
    span_digits ds = (ds, []) := by
  have := span_digits_append ds h [] rfl
  simpa using this

/-- All characters of the zero-padded digit string are digits. -/
theorem digits_zeros_all (a k : Nat) :
    ∀ x ∈ nat_digits a ++ List.replicate k '0', x.isDigit = true := by
  intro x hx
  rcases List.mem_append.mp hx with hx | hx
  · exact nat_digits_aux_digits a a x hx
  · rw [List.eq_of_mem_replicate hx]; decide

/-- `parse_f64` on an unsigned digit string with trailing zeros. -/
theorem parse_f64_int_digits (a k : Nat) :
    parse_f64 (nat_digits a ++ List.replicate k '0')
      = some (JNum.norm ⟨(a : Int) * 10 ^ k, 0⟩) := by
  obtain ⟨c, t, hct, hc⟩ := nat_digits_aux_cons a a
  have hct' : nat_digits a = c :: t := hct
  have hspan := span_digits_all _ (digits_zeros_all a k)
  have hval : digits_val (nat_digits a ++ List.replicate k '0') = a * 10 ^ k := by
    rw [digits_val_append, digits_val_zeros, digits_val_nat_digits_self]
    simp
  rw [parse_f64.eq_def]
  rw [hct', List.cons_append]
  simp only [if_neg (isDigit_ne hc '+' (by decide)),
             if_neg (isDigit_ne hc '-' (by decide))]
  rw [← List.cons_append, ← hct']
  have hne : (nat_digits a ++ List.replicate k '0').isEmpty = false := by
    rw [hct']; rfl
  simp only [hspan]
  simp only [hne, Bool.false_eq_true, if_false, parse_exp_part, hval]
  norm_num

/-- `parse_f64` on a minus sign, digits and trailing zeros. -/
theorem parse_f64_int_digits_neg (a k : Nat) :
    parse_f64 ('-' :: (nat_digits a ++ List.replicate k '0'))
      = some (JNum.norm ⟨-(a : Int) * 10 ^ k, 0⟩) := by
  have hspan := span_digits_all _ (digits_zeros_all a k)
  have hval : digits_val (nat_digits a ++ List.replicate k '0') = a * 10 ^ k := by
    rw [digits_val_append, digits_val_zeros, digits_val_nat_digits_self]
    simp
  have hne : (nat_digits a ++ List.replicate k '0').isEmpty = false := by
    obtain ⟨c, t, hct, _⟩ := nat_digits_aux_cons a a
    rw [show nat_digits a = c :: t from hct]; rfl
  rw [parse_f64.eq_def]
  simp only [eq_false (show ¬ (('-' : Char) = '+') by decide), if_false, reduceIte]
  simp only [hspan]
  simp only [hne, Bool.false_eq_true, if_false, parse_exp_part, hval]
  norm_num

/-- `parse_f64` on an all-digit string split by a decimal point `k` places
from the end. -/
theorem parse_f64_point (ds : List Char) (k : Nat) (hk : 1 ≤ k)
    (hds : ∀ c ∈ ds, c.isDigit = true) (hlen : k + 1 ≤ ds.length) :
    parse_f64 (ds.take (ds.length - k) ++ ['.'] ++ ds.drop (ds.length - k))
      = some (JNum.norm ⟨(digits_val ds : Int), -(k : Int)⟩) := by
  have hip_all : ∀ c ∈ ds.take (ds.length - k), c.isDigit = true :=
    fun c hc => hds c (List.mem_of_mem_take hc)
  have hfp_all : ∀ c ∈ ds.drop (ds.length - k), c.isDigit = true :=
    fun c hc => hds c (List.mem_of_mem_drop hc)
  have hiplen : (ds.take (ds.length - k)).length = ds.length - k := by
    rw [List.length_take]
    omega
  have hfplen : (ds.drop (ds.length - k)).length = k := by
    rw [List.length_drop]
    omega
  obtain ⟨c, t, hct⟩ : ∃ c t, ds.take (ds.length - k) = c :: t := by
    rcases h : ds.take (ds.length - k) with _ | ⟨c, t⟩
    · rw [h] at hiplen
      simp at hiplen
      omega
    · exact ⟨c, t, rfl⟩
  have hc : c.isDigit = true := hip_all c (hct ▸ List.mem_cons_self _ _)
  have hspan1 : span_digits (ds.take (ds.length - k) ++ ('.' :: ds.drop (ds.length - k)))
      = (ds.take (ds.length - k), '.' :: ds.drop (ds.length - k)) :=
    span_digits_append _ hip_all _ (span_digits_not_digit (by decide) _)
  have hspan2 := span_digits_all _ hfp_all
  have hne : (ds.take (ds.length - k)).isEmpty = false := by
    rw [hct]; rfl
  rw [List.append_assoc, List.singleton_append]
  rw [parse_f64.eq_def]
  rw [hct, List.cons_append]
  simp only [if_neg (isDigit_ne hc '+' (by decide)),
             if_neg (isDigit_ne hc '-' (by decide))]
  rw [← List.cons_append, ← hct]
  simp only [hspan1]
  simp only [reduceIte, hspan2, hne, Bool.false_and, Bool.false_eq_true, if_false,
    parse_exp_part, List.take_append_drop, hfplen]
  norm_num

/-- `parse_f64` on a minus sign and an all-digit string split by a decimal
point `k` places from the end. -/
theorem parse_f64_point_neg (ds : List Char) (k : Nat) (hk : 1 ≤ k)
    (hds : ∀ c ∈ ds, c.isDigit = true) (hlen : k + 1 ≤ ds.length) :
    parse_f64 ('-' :: (ds.take (ds.length - k) ++ ['.'] ++ ds.drop (ds.length - k)))
      = some (JNum.norm ⟨-(digits_val ds : Int), -(k : Int)⟩) := by
  have hip_all : ∀ c ∈ ds.take (ds.length - k), c.isDigit = true :=
    fun c hc => hds c (List.mem_of_mem_take hc)
  have hfp_all : ∀ c ∈ ds.drop (ds.length - k), c.isDigit = true :=
    fun c hc => hds c (List.mem_of_mem_drop hc)
  have hiplen : (ds.take (ds.length - k)).length = ds.length - k := by
    rw [List.length_take]
    omega
  have hfplen : (ds.drop (ds.length - k)).length = k := by
    rw [List.length_drop]
    omega
  have hspan1 : span_digits (ds.take (ds.length - k) ++ ('.' :: ds.drop (ds.length - k)))
      = (ds.take (ds.length - k), '.' :: ds.drop (ds.length - k)) :=
    span_digits_append _ hip_all _ (span_digits_not_digit (by decide) _)
  have hspan2 := span_digits_all _ hfp_all
  have hne : (ds.take (ds.length - k)).isEmpty = false := by
    rcases h : ds.take (ds.length - k) with _ | ⟨c, t⟩
    · rw [h] at hiplen
      simp at hiplen
      omega
    · rfl
  rw [List.append_assoc, List.singleton_append]
  rw [parse_f64.eq_def]
  simp only [eq_false (show ¬ (('-' : Char) = '+') by decide), if_false, reduceIte]
  simp only [hspan1]
  simp only [reduceIte, hspan2, hne, Bool.false_and, Bool.false_eq_true, if_false,
    parse_exp_part, List.take_append_drop, hfplen]
  norm_num

/-- Parsing the displayed form of a canonical number recovers it exactly. -/
theorem parse_f64_display (n : JNum) (h : JNum.norm n = n) :
    parse_f64 (display_f64 n) = some n := by
  obtain ⟨m, e⟩ := n
  rcases norm_spec ⟨m, e⟩ h with ⟨hm0, he0⟩ | hm10
  · have hm0' : m = 0 := hm0
    have he0' : e = 0 := he0
    subst hm0'
    subst he0'
    decide
  · have hm10' : m % 10 ≠ 0 := hm10
    have hm : m ≠ 0 := by omega
    by_cases he : 0 ≤ e
    · by_cases hneg : m < 0
      · have hd : display_f64 ⟨m, e⟩
            = '-' :: (nat_digits m.natAbs ++ List.replicate e.toNat '0') := by
          simp [display_f64, hneg, he]
        rw [hd, parse_f64_int_digits_neg]
        rw [show -(m.natAbs : Int) = m by omega]
        rw [norm_strip e.toNat m 0 hm10']
        rw [show (0 : Int) + ↑e.toNat = e by omega]
      · push_neg at hneg
        have hd : display_f64 ⟨m, e⟩
            = nat_digits m.natAbs ++ List.replicate e.toNat '0' := by
          simp [display_f64, not_lt.mpr hneg, he]
        rw [hd, parse_f64_int_digits]
        rw [show (m.natAbs : Int) = m by omega]
        rw [norm_strip e.toNat m 0 hm10']
        rw [show (0 : Int) + ↑e.toNat = e by omega]
    · push_neg at he
      have hk : 1 ≤ (-e).toNat := by omega
      have hdsall : ∀ c ∈ List.replicate ((-e).toNat + 1 - (nat_digits m.natAbs).length) '0'
          ++ nat_digits m.natAbs, c.isDigit = true := by
        intro c hc
        rcases List.mem_append.mp hc with hc | hc
        · rw [List.eq_of_mem_replicate hc]; decide
        · exact nat_digits_aux_digits _ _ c hc
      have hlen : (-e).toNat + 1 ≤ (List.replicate ((-e).toNat + 1 - (nat_digits m.natAbs).length) '0'
          ++ nat_digits m.natAbs).length := by
        rw [List.length_append, List.length_replicate]
        omega
      have hval : digits_val (List.replicate ((-e).toNat + 1 - (nat_digits m.natAbs).length) '0'
          ++ nat_digits m.natAbs) = m.natAbs := by
        rw [digits_val_append, digits_val_zeros, digits_val_nat_digits_self]
        simp
      by_cases hneg : m < 0
      · have hd : display_f64 ⟨m, e⟩
            = '-' :: ((List.replicate ((-e).toNat + 1 - (nat_digits m.natAbs).length) '0'
                ++ nat_digits m.natAbs).take ((List.replicate ((-e).toNat + 1
                  - (nat_digits m.natAbs).length) '0' ++ nat_digits m.natAbs).length - (-e).toNat)
              ++ ['.'] ++ (List.replicate ((-e).toNat + 1 - (nat_digits m.natAbs).length) '0'
                ++ nat_digits m.natAbs).drop ((List.replicate ((-e).toNat + 1
                  - (nat_digits m.natAbs).length) '0' ++ nat_digits m.natAbs).length - (-e).toNat)) := by
          simp [display_f64, hneg, not_le.mpr he]
        rw [hd, parse_f64_point_neg _ _ hk hdsall hlen, hval]
        rw [show -(m.natAbs : Int) = m by omega]
        rw [norm_self hm10']
        rw [show -(((-e).toNat : Int)) = e by omega]
      · push_neg at hneg
        have hd : display_f64 ⟨m, e⟩
            = (List.replicate ((-e).toNat + 1 - (nat_digits m.natAbs).length) '0'
                ++ nat_digits m.natAbs).take ((List.replicate ((-e).toNat + 1
                  - (nat_digits m.natAbs).length) '0' ++ nat_digits m.natAbs).length - (-e).toNat)
              ++ ['.'] ++ (List.replicate ((-e).toNat + 1 - (nat_digits m.natAbs).length) '0'
                ++ nat_digits m.natAbs).drop ((List.replicate ((-e).toNat + 1
                  - (nat_digits m.natAbs).length) '0' ++ nat_digits m.natAbs).length - (-e).toNat) := by
          simp [display_f64, not_lt.mpr hneg, not_le.mpr he]
        rw [hd, parse_f64_point _ _ hk hdsall hlen, hval]
        rw [show (m.natAbs : Int) = m by omega]
        rw [norm_self hm10']
        rw [show -(((-e).toNat : Int)) = e by omega]

/-- The string loop at a closing quote flushes and stops. -/
theorem parse_string_loop_close : ∀ (rest acc : List Char),
    parse_string_loop ('"' :: rest) [] acc
      = some (.ok (.string (String.mk acc), rest))
  | [], acc => by
      rw [parse_string_loop.eq_def]
      simp [show ('"' : Char) ≠ '\\' by decide, push_utf16, except_step]
  | r :: rt, acc => by
      rw [parse_string_loop.eq_def]
      simp [show ('"' : Char) ≠ '\\' by decide, push_utf16, except_step]

/-- The string loop passes an ordinary character through. -/
theorem parse_string_loop_step (c : Char) (h1 : c ≠ '\\') (h2 : c ≠ '"') :
    ∀ (t rest acc : List Char),
    parse_string_loop (c :: (t ++ '"' :: rest)) [] acc
      = parse_string_loop (t ++ '"' :: rest) [] (acc ++ [c])
  | [], rest, acc => by
      rw [parse_string_loop.eq_def]
      simp [h1, h2, push_utf16, except_step]
  | c2 :: t2, rest, acc => by
      rw [parse_string_loop.eq_def]
      simp [h1, h2, push_utf16, except_step]

/-- The string loop reads a backslash-and-quote-free run verbatim up to the
closing quote. -/
theorem parse_string_loop_safe : ∀ (s : List Char),
    (∀ c ∈ s, c ≠ '\\' ∧ c ≠ '"') → ∀ (rest acc : List Char),
    parse_string_loop (s ++ '"' :: rest) [] acc
      = some (.ok (.string (String.mk (acc ++ s)), rest))
  | [], _, rest, acc => by simpa using parse_string_loop_close rest acc
  | c :: t, hs, rest, acc => by
      obtain ⟨h1, h2⟩ := hs c (List.mem_cons_self _ _)
      rw [List.cons_append, parse_string_loop_step c h1 h2,
          parse_string_loop_safe t (fun x hx => hs x (List.mem_cons_of_mem _ hx)) rest (acc ++ [c])]
      simp

/-- `next_token` on a quoted safe string followed by anything. -/
theorem next_token_string (s : String) (hs : safe_str s = true) (rest : List Char) :
    next_token ('"' :: (s.data ++ '"' :: rest)) = some (.ok (some (.string s), rest)) := by
  have h0 : next_token ('"' :: (s.data ++ '"' :: rest))
      = unwrap_opt_step (parse_string_loop (s.data ++ '"' :: rest) [] [])
          (fun tr => some (.ok (some tr.1, tr.2))) := rfl
  have hsafe : ∀ c ∈ s.data, c ≠ '\\' ∧ c ≠ '"' := by
    intro c hc
    have := List.all_eq_true.mp hs c hc
    simp only [Bool.and_eq_true, decide_eq_true_eq] at this
    exact this
  rw [h0, parse_string_loop_safe s.data hsafe rest []]
  simp [unwrap_opt_step]

/-- Every character of a displayed number is a digit, `-` or `.`. -/
theorem display_chars (n : JNum) :
    ∀ c ∈ display_f64 n, c.isDigit = true ∨ c = '-' ∨ c = '.' := by
  intro c hc
  have hsgn : ∀ x ∈ (if n.mantissa < 0 then ['-'] else ([] : List Char)), x = '-' := by
    intro x hx
    by_cases hm : n.mantissa < 0
    · rw [if_pos hm] at hx; simpa using hx
    · rw [if_neg hm] at hx; simp at hx
  have hbase : ∀ x ∈ List.replicate ((-n.exponent).toNat + 1
        - (nat_digits n.mantissa.natAbs).length) '0' ++ nat_digits n.mantissa.natAbs,
      x.isDigit = true := by
    intro x hx
    rcases List.mem_append.mp hx with hx | hx
    · rw [List.eq_of_mem_replicate hx]; decide
    · exact nat_digits_aux_digits _ _ x hx
  simp only [display_f64] at hc
  by_cases he : 0 ≤ n.exponent
  · rw [if_pos he] at hc
    rcases List.mem_append.mp hc with hc | hc
    · rcases List.mem_append.mp hc with hc | hc
      · right; left; exact hsgn c hc
      · left; exact nat_digits_aux_digits _ _ c hc
    · left; rw [List.eq_of_mem_replicate hc]; decide
  · rw [if_neg he] at hc
    rcases List.mem_append.mp hc with hc | hc
    · right; left; exact hsgn c hc
    · rcases List.mem_append.mp hc with hc | hc
      · rcases List.mem_append.mp hc with hc | hc
        · left; exact hbase c (List.mem_of_mem_take hc)
        · right; right; simpa using hc
      · left; exact hbase c (List.mem_of_mem_drop hc)

/-- A displayed number starts with a digit or a minus sign. -/
theorem display_cons (n : JNum) :
    ∃ c t, display_f64 n = c :: t ∧ (c.isDigit = true ∨ c = '-') := by
  by_cases hm : n.mantissa < 0
  · refine ⟨'-', display_f64 n |>.tail, ?_, Or.inr rfl⟩
    simp only [display_f64, if_pos hm]
    by_cases he : 0 ≤ n.exponent
    · rw [if_pos he]
      simp
    · rw [if_neg he]
      simp
  · by_cases he : 0 ≤ n.exponent
    · obtain ⟨c0, t0, hct, hc0⟩ := nat_digits_aux_cons n.mantissa.natAbs n.mantissa.natAbs
      refine ⟨c0, t0 ++ List.replicate n.exponent.toNat '0', ?_, Or.inl hc0⟩
      simp only [display_f64, if_pos he, if_neg hm, List.nil_append]
      rw [show nat_digits n.mantissa.natAbs = c0 :: t0 from hct]
      simp
    · have hlen0 : 1 ≤ (nat_digits n.mantissa.natAbs).length := by
        cases h : nat_digits n.mantissa.natAbs with
        | nil => exact absurd h (nat_digits_aux_ne_nil _ _)
        | cons a b => simp
      have hlen : 1 ≤ (List.replicate ((-n.exponent).toNat + 1
            - (nat_digits n.mantissa.natAbs).length) '0'
          ++ nat_digits n.mantissa.natAbs).length - (-n.exponent).toNat := by
        rw [List.length_append, List.length_replicate]
        omega
      obtain ⟨c0, t0, hct⟩ : ∃ c0 t0, (List.replicate ((-n.exponent).toNat + 1
            - (nat_digits n.mantissa.natAbs).length) '0'
          ++ nat_digits n.mantissa.natAbs).take ((List.replicate ((-n.exponent).toNat + 1
            - (nat_digits n.mantissa.natAbs).length) '0'
          ++ nat_digits n.mantissa.natAbs).length - (-n.exponent).toNat) = c0 :: t0 := by
        rcases h : (List.replicate ((-n.exponent).toNat + 1
            - (nat_digits n.mantissa.natAbs).length) '0'
          ++ nat_digits n.mantissa.natAbs).take ((List.replicate ((-n.exponent).toNat + 1
            - (nat_digits n.mantissa.natAbs).length) '0'
          ++ nat_digits n.mantissa.natAbs).length - (-n.exponent).toNat) with _ | ⟨c0, t0⟩
        · have := congrArg List.length h
          rw [List.length_take] at this
          simp at this
          omega
        · exact ⟨c0, t0, rfl⟩
      have hc0 : c0.isDigit = true := by
        have hmem : c0 ∈ List.replicate ((-n.exponent).toNat + 1
              - (nat_digits n.mantissa.natAbs).length) '0'
            ++ nat_digits n.mantissa.natAbs :=
          List.mem_of_mem_take (hct ▸ List.mem_cons_self _ _)
        rcases List.mem_append.mp hmem with hx | hx
        · rw [List.eq_of_mem_replicate hx]; decide
        · exact nat_digits_aux_digits _ _ c0 hx
      refine ⟨c0, t0 ++ ['.'] ++ (List.replicate ((-n.exponent).toNat + 1
            - (nat_digits n.mantissa.natAbs).length) '0'
          ++ nat_digits n.mantissa.natAbs).drop ((List.replicate ((-n.exponent).toNat + 1
            - (nat_digits n.mantissa.natAbs).length) '0'
          ++ nat_digits n.mantissa.natAbs).length - (-n.exponent).toNat), ?_, Or.inl hc0⟩
      simp only [display_f64, if_neg he, if_neg hm, List.nil_append]
      rw [hct]
      simp

/-- `parse_number` on a displayed canonical number followed by a boundary. -/
theorem parse_number_display (n : JNum) (hn : JNum.norm n = n) (rest : List Char)
    (hr : num_boundary rest = true) :
    parse_number (display_f64 n ++ rest) = (.ok (.number n), rest) := by
  have hall : ∀ c ∈ display_f64 n, is_number c false = true := by
    intro c hc
    rcases display_chars n c hc with h | h | h
    · exact isDigit_is_number h false
    · subst h; decide
    · subst h; decide
  rw [parse_number.eq_def, take_number_str_append (display_f64 n) hall rest hr]
  simp only [parse_f64_display n hn]

/-- `next_token` on a displayed canonical number followed by a boundary. -/
theorem next_token_number (n : JNum) (hn : JNum.norm n = n) (rest : List Char)
    (hr : num_boundary rest = true) :
    next_token (display_f64 n ++ rest) = some (.ok (some (.number n), rest)) := by
  obtain ⟨c, t, hd, hc⟩ := display_cons n
  have hws : char_is_whitespace c = false ∧ (c == '\n') = false := by
    rcases hc with hc | hc
    · exact isDigit_not_ws hc
    · subst hc; exact ⟨by decide, by decide⟩
  have hnum : is_number c true = true := by
    rcases hc with hc | hc
    · exact isDigit_is_number hc true
    · subst hc; decide
  rw [hd, List.cons_append, next_token.eq_def]
  simp only [hws.1, hws.2, Bool.or_self, Bool.false_eq_true, if_false, hnum, if_true]
  rw [← List.cons_append, ← hd, parse_number_display n hn rest hr]
  rfl

/-- One non-whitespace token step of the lexer loop. -/
theorem lex_step {cs : List Char} {t : Token} {rest : List Char}
    (h : next_token cs = some (.ok (some t, rest))) (ht : t ≠ .whiteSpace)
    (fuel : Nat) (acc : List Token) :
    lexical_analyze_loop (fuel + 1) cs acc = lexical_analyze_loop fuel rest (acc ++ [t]) := by
  simp only [lexical_analyze_loop, h, unwrap_opt_step]

mutual
/-- The lexer turns the compact rendering of a good value followed by a
boundary continuation into the canonical token sequence, consuming one fuel
unit per token. -/
theorem lex_tokens_val :
    ∀ (v : JsonObject) (restC : List Char) (acc : List Token) (fuel : Nat),
      good v = true → num_boundary restC = true →
      lexical_analyze_loop ((tokensOf v).length + fuel)
          (do_minimum_output v false ++ restC) acc
        = lexical_analyze_loop fuel restC (acc ++ tokensOf v)
  | .string s, restC, acc, fuel, hg, hb => by
      have hs : safe_str s = true := hg
      have hrender : do_minimum_output (.string s) false ++ restC
          = '"' :: (s.data ++ '"' :: restC) := by
        simp [do_minimum_output]
      rw [hrender,
          show (tokensOf (.string s)).length + fuel = fuel + 1 from
            (by simp only [tokensOf, List.length_cons, List.length_nil]; omega),
          lex_step (next_token_string s hs restC) (by simp) fuel acc]
      rfl
  | .number n, restC, acc, fuel, hg, hb => by
      have hn : JNum.norm n = n := by
        have : (JNum.norm n == n) = true := hg
        simpa using this
      rw [show do_minimum_output (.number n) false = display_f64 n from rfl,
          show (tokensOf (.number n)).length + fuel = fuel + 1 from
            (by simp only [tokensOf, List.length_cons, List.length_nil]; omega),
          lex_step (next_token_number n hn restC hb) (by simp) fuel acc]
      rfl
  | .bool b, restC, acc, fuel, hg, hb => by
      cases b
      · rw [show do_minimum_output (.bool false) false ++ restC
              = 'f' :: 'a' :: 'l' :: 's' :: 'e' :: restC from rfl,
            show (tokensOf (.bool false)).length + fuel = fuel + 1 from
              (by simp only [tokensOf, List.length_cons, List.length_nil]; omega),
            lex_step (show next_token ('f' :: 'a' :: 'l' :: 's' :: 'e' :: restC)
              = some (.ok (some (.bool false), restC)) from rfl) (by simp) fuel acc]
        rfl
      · rw [show do_minimum_output (.bool true) false ++ restC
              = 't' :: 'r' :: 'u' :: 'e' :: restC from rfl,
            show (tokensOf (.bool true)).length + fuel = fuel + 1 from
              (by simp only [tokensOf, List.length_cons, List.length_nil]; omega),
            lex_step (show next_token ('t' :: 'r' :: 'u' :: 'e' :: restC)
              = some (.ok (some (.bool true), restC)) from rfl) (by simp) fuel acc]
        rfl
  | .null, restC, acc, fuel, hg, hb => by
      rw [show do_minimum_output .null false ++ restC
              = 'n' :: 'u' :: 'l' :: 'l' :: restC from rfl,
          show (tokensOf .null).length + fuel = fuel + 1 from
            (by simp only [tokensOf, List.length_cons, List.length_nil]; omega),
          lex_step (show next_token ('n' :: 'u' :: 'l' :: 'l' :: restC)
            = some (.ok (some .null, restC)) from rfl) (by simp) fuel acc]
      rfl
  | .array vs, restC, acc, fuel, hg, hb => by
      rw [show good (.array vs) = (!vs.isEmpty && goodElems vs) from rfl,
          Bool.and_eq_true] at hg
      have hrender : do_minimum_output (.array vs) false ++ restC
          = '[' :: (minimum_elems vs false ++ ']' :: restC) := by
        simp [do_minimum_output]
      have hlen : (tokensOf (.array vs)).length = (tokensElems vs).length + 2 := by
        simp [tokensOf]
      rw [hrender, hlen,
          show (tokensElems vs).length + 2 + fuel
            = ((tokensElems vs).length + (1 + fuel)) + 1 from by omega,
          lex_step (show next_token ('[' :: (minimum_elems vs false ++ ']' :: restC))
            = some (.ok (some .leftBracket, minimum_elems vs false ++ ']' :: restC)) from rfl)
            (by simp) ((tokensElems vs).length + (1 + fuel)) acc,
          lex_tokens_elems vs (']' :: restC) (acc ++ [Token.leftBracket]) (1 + fuel) hg.2 rfl,
          show 1 + fuel = fuel + 1 from by omega,
          lex_step (show next_token (']' :: restC)
            = some (.ok (some .rightBracket, restC)) from rfl) (by simp) fuel
            (acc ++ [Token.leftBracket] ++ tokensElems vs)]
      simp [tokensOf]
  | .object ms, restC, acc, fuel, hg, hb => by
      rw [show good (.object ms) = (sorted_keys ms && goodMembers ms) from rfl,
          Bool.and_eq_true] at hg
      have hrender : do_minimum_output (.object ms) false ++ restC
          = '{' :: (minimum_members ms false ++ '}' :: restC) := by
        simp [do_minimum_output]
      have hlen : (tokensOf (.object ms)).length = (tokensMembers ms).length + 2 := by
        simp [tokensOf]
      rw [hrender, hlen,
          show (tokensMembers ms).length + 2 + fuel
            = ((tokensMembers ms).length + (1 + fuel)) + 1 from by omega,
          lex_step (show next_token ('{' :: (minimum_members ms false ++ '}' :: restC))
            = some (.ok (some .leftBrace, minimum_members ms false ++ '}' :: restC)) from rfl)
            (by simp) ((tokensMembers ms).length + (1 + fuel)) acc,
          lex_tokens_members ms ('}' :: restC) (acc ++ [Token.leftBrace]) (1 + fuel) hg.2 rfl,
          show 1 + fuel = fuel + 1 from by omega,
          lex_step (show next_token ('}' :: restC)
            = some (.ok (some .rightBrace, restC)) from rfl) (by simp) fuel
            (acc ++ [Token.leftBrace] ++ tokensMembers ms)]
      simp [tokensOf]
termination_by v _ _ _ _ _ => sizeOf v
/-- The lexer on a comma-separated run of rendered good elements. -/
theorem lex_tokens_elems :
    ∀ (vs : List JsonObject) (restC : List Char) (acc : List Token) (fuel : Nat),
      goodElems vs = true → num_boundary restC = true →
      lexical_analyze_loop ((tokensElems vs).length + fuel)
          (minimum_elems vs false ++ restC) acc
        = lexical_analyze_loop fuel restC (acc ++ tokensElems vs)
  | [], restC, acc, fuel, _, _ => by
      simp [tokensElems, minimum_elems]
  | [v], restC, acc, fuel, hg, hb => by
      rw [show goodElems [v] = (good v && goodElems []) from rfl, Bool.and_eq_true] at hg
      rw [show minimum_elems [v] false = do_minimum_output v false from rfl,
          show tokensElems [v] = tokensOf v from rfl]
      exact lex_tokens_val v restC acc fuel hg.1 hb
  | v :: v2 :: rest, restC, acc, fuel, hg, hb => by
      rw [show goodElems (v :: v2 :: rest) = (good v && goodElems (v2 :: rest)) from rfl,
          Bool.and_eq_true] at hg
      have hrender : minimum_elems (v :: v2 :: rest) false ++ restC
          = do_minimum_output v false
            ++ (',' :: (minimum_elems (v2 :: rest) false ++ restC)) := by
        simp [minimum_elems]
      have hlen : (tokensElems (v :: v2 :: rest)).length
          = (tokensOf v).length + 1 + (tokensElems (v2 :: rest)).length := by
        simp [tokensElems]
        omega
      rw [hrender, hlen,
          show (tokensOf v).length + 1 + (tokensElems (v2 :: rest)).length + fuel
            = (tokensOf v).length + (1 + ((tokensElems (v2 :: rest)).length + fuel))
            from by omega,
          lex_tokens_val v (',' :: (minimum_elems (v2 :: rest) false ++ restC)) acc
            (1 + ((tokensElems (v2 :: rest)).length + fuel)) hg.1 rfl,
          show 1 + ((tokensElems (v2 :: rest)).length + fuel)
            = ((tokensElems (v2 :: rest)).length + fuel) + 1 from by omega,
          lex_step (show next_token (',' :: (minimum_elems (v2 :: rest) false ++ restC))
            = some (.ok (some .comma, minimum_elems (v2 :: rest) false ++ restC)) from rfl)
            (by simp) ((tokensElems (v2 :: rest)).length + fuel) (acc ++ tokensOf v),
          lex_tokens_elems (v2 :: rest) restC (acc ++ tokensOf v ++ [Token.comma]) fuel hg.2 hb]
      simp [tokensElems]
termination_by vs _ _ _ _ _ => sizeOf vs
/-- The lexer on a comma-separated run of rendered good members. -/
theorem lex_tokens_members :
    ∀ (ms : List (String × JsonObject)) (restC : List Char) (acc : List Token) (fuel : Nat),
      goodMembers ms = true → num_boundary restC = true →
      lexical_analyze_loop ((tokensMembers ms).length + fuel)
          (minimum_members ms false ++ restC) acc
        = lexical_analyze_loop fuel restC (acc ++ tokensMembers ms)
  | [], restC, acc, fuel, _, _ => by
      simp [tokensMembers, minimum_members]
  | [(k, v)], restC, acc, fuel, hg, hb => by
      rw [show goodMembers [(k, v)] = (safe_str k && good v && goodMembers []) from rfl,
          Bool.and_eq_true, Bool.and_eq_true] at hg
      have hrender : minimum_members [(k, v)] false ++ restC
          = '"' :: (k.data ++ '"' :: (':' :: (do_minimum_output v false ++ restC))) := by
        simp [minimum_members]
      have hlen : (tokensMembers [(k, v)]).length = (tokensOf v).length + 2 := by
        simp [tokensMembers]
      rw [hrender, hlen,
          show (tokensOf v).length + 2 + fuel = ((tokensOf v).length + 1 + fuel) + 1
            from by omega,
          lex_step (next_token_string k hg.1.1 (':' :: (do_minimum_output v false ++ restC)))
            (by simp) ((tokensOf v).length + 1 + fuel) acc]
      rw [show (tokensOf v).length + 1 + fuel = ((tokensOf v).length + fuel) + 1
            from by omega]
      rw [lex_step (show next_token (':' :: (do_minimum_output v false ++ restC))
            = some (.ok (some .colon, do_minimum_output v false ++ restC)) from rfl)
            (by simp) ((tokensOf v).length + fuel) (acc ++ [Token.string k])]
      rw [lex_tokens_val v restC (acc ++ [Token.string k] ++ [Token.colon]) fuel hg.1.2 hb]
      simp [tokensMembers]
  | (k, v) :: m2 :: rest, restC, acc, fuel, hg, hb => by
      rw [show goodMembers ((k, v) :: m2 :: rest)
            = (safe_str k && good v && goodMembers (m2 :: rest)) from rfl,
          Bool.and_eq_true, Bool.and_eq_true] at hg
      have hrender : minimum_members ((k, v) :: m2 :: rest) false ++ restC
          = '"' :: (k.data ++ '"' :: (':' :: (do_minimum_output v false
              ++ (',' :: (minimum_members (m2 :: rest) false ++ restC))))) := by
        simp [minimum_members]
      have hlen : (tokensMembers ((k, v) :: m2 :: rest)).length
          = (tokensOf v).length + 3 + (tokensMembers (m2 :: rest)).length := by
        simp [tokensMembers]
        omega
      rw [hrender, hlen,
          show (tokensOf v).length + 3 + (tokensMembers (m2 :: rest)).length + fuel
            = ((tokensOf v).length + 2 + ((tokensMembers (m2 :: rest)).length + fuel)) + 1
            from by omega,
          lex_step (next_token_string k hg.1.1 (':' :: (do_minimum_output v false
              ++ (',' :: (minimum_members (m2 :: rest) false ++ restC)))))
            (by simp) ((tokensOf v).length + 2 + ((tokensMembers (m2 :: rest)).length + fuel)) acc,
          show (tokensOf v).length + 2 + ((tokensMembers (m2 :: rest)).length + fuel)
            = ((tokensOf v).length + (1 + ((tokensMembers (m2 :: rest)).length + fuel))) + 1
            from by omega,
          lex_step (show next_token (':' :: (do_minimum_output v false
              ++ (',' :: (minimum_members (m2 :: rest) false ++ restC))))
            = some (.ok (some .colon, do_minimum_output v false
              ++ (',' :: (minimum_members (m2 :: rest) false ++ restC)))) from rfl)
            (by simp) ((tokensOf v).length + (1 + ((tokensMembers (m2 :: rest)).length + fuel)))
            (acc ++ [Token.string k]),
          lex_tokens_val v (',' :: (minimum_members (m2 :: rest) false ++ restC))
            (acc ++ [Token.string k] ++ [Token.colon])
            (1 + ((tokensMembers (m2 :: rest)).length + fuel)) hg.1.2 rfl,
          show 1 + ((tokensMembers (m2 :: rest)).length + fuel)
            = ((tokensMembers (m2 :: rest)).length + fuel) + 1 from by omega,
          lex_step (show next_token (',' :: (minimum_members (m2 :: rest) false ++ restC))
            = some (.ok (some .comma, minimum_members (m2 :: rest) false ++ restC)) from rfl)
            (by simp) ((tokensMembers (m2 :: rest)).length + fuel)
            (acc ++ [Token.string k] ++ [Token.colon] ++ tokensOf v),
          lex_tokens_members (m2 :: rest) restC
            (acc ++ [Token.string k] ++ [Token.colon] ++ tokensOf v ++ [Token.comma]) fuel hg.2 hb]
      simp [tokensMembers]
termination_by ms _ _ _ _ _ => sizeOf ms
end

mutual
/-- A rendering is at least as long as its token sequence. -/
theorem render_len_val : ∀ v : JsonObject,
    (tokensOf v).length ≤ (do_minimum_output v false).length
  | .string s => by simp [tokensOf, do_minimum_output]
  | .number n => by
      obtain ⟨c, t, hd, _⟩ := display_cons n
      simp [tokensOf, do_minimum_output, hd]
  | .bool b => by cases b <;> simp [tokensOf, do_minimum_output]
  | .null => by simp [tokensOf, do_minimum_output]
  | .array vs => by
      have h := render_len_elems vs
      simp only [tokensOf, do_minimum_output, List.length_cons, List.length_append,
        List.length_nil]
      omega
  | .object ms => by
      have h := render_len_members ms
      simp only [tokensOf, do_minimum_output, List.length_cons, List.length_append,
        List.length_nil]
      omega
termination_by v => sizeOf v
/-- Element runs: tokens are no longer than the rendering. -/
theorem render_len_elems : ∀ vs : List JsonObject,
    (tokensElems vs).length ≤ (minimum_elems vs false).length
  | [] => le_refl _
  | [v] => by
      rw [show tokensElems [v] = tokensOf v from rfl,
          show minimum_elems [v] false = do_minimum_output v false from rfl]
      exact render_len_val v
  | v :: v2 :: rest => by
      have h1 := render_len_val v
      have h2 := render_len_elems (v2 :: rest)
      simp only [tokensElems, minimum_elems, List.length_append, List.length_cons]
      omega
termination_by vs => sizeOf vs
/-- Member runs: tokens are no longer than the rendering. -/
theorem render_len_members : ∀ ms : List (String × JsonObject),
    (tokensMembers ms).length ≤ (minimum_members ms false).length
  | [] => le_refl _
  | [(k, v)] => by
      have h1 := render_len_val v
      simp only [tokensMembers, minimum_members, Bool.false_eq_true, if_false,
        List.length_cons, List.length_append]
      omega
  | (k, v) :: m2 :: rest => by
      have h1 := render_len_val v
      have h2 := render_len_members (m2 :: rest)
      simp only [tokensMembers, minimum_members, Bool.false_eq_true, if_false,
        List.length_cons, List.length_append]
      omega
termination_by ms => sizeOf ms
end

mutual
/-- Every good value is parseable. -/
theorem good_parseable : ∀ v : JsonObject, good v = true → parseable v = true
  | .string _, _ => rfl
  | .number _, _ => rfl
  | .bool _, _ => rfl
  | .null, _ => rfl
  | .array vs, h => by
      rw [show good (.array vs) = (!vs.isEmpty && goodElems vs) from rfl,
          Bool.and_eq_true] at h
      rw [show parseable (.array vs) = (!vs.isEmpty && parseableElems vs) from rfl,
          Bool.and_eq_true]
      exact ⟨h.1, good_parseableElems vs h.2⟩
  | .object ms, h => by
      rw [show good (.object ms) = (sorted_keys ms && goodMembers ms) from rfl,
          Bool.and_eq_true] at h
      rw [show parseable (.object ms) = (sorted_keys ms && parseableMembers ms) from rfl,
          Bool.and_eq_true]
      exact ⟨h.1, good_parseableMembers ms h.2⟩
termination_by v _ => sizeOf v
/-- Every good element run is parseable. -/
theorem good_parseableElems : ∀ vs : List JsonObject,
    goodElems vs = true → parseableElems vs = true
  | [], _ => rfl
  | v :: rest, h => by
      rw [show goodElems (v :: rest) = (good v && goodElems rest) from rfl,
          Bool.and_eq_true] at h
      rw [show parseableElems (v :: rest) = (parseable v && parseableElems rest) from rfl,
          Bool.and_eq_true]
      exact ⟨good_parseable v h.1, good_parseableElems rest h.2⟩
termination_by vs _ => sizeOf vs
/-- Every good member run is parseable. -/
theorem good_parseableMembers : ∀ ms : List (String × JsonObject),
    goodMembers ms = true → parseableMembers ms = true
  | [], _ => rfl
  | (k, v) :: rest, h => by
      rw [show goodMembers ((k, v) :: rest) = (safe_str k && good v && goodMembers rest) from rfl,
          Bool.and_eq_true, Bool.and_eq_true] at h
      rw [show parseableMembers ((k, v) :: rest)
            = (parseable v && parseableMembers rest) from rfl,
          Bool.and_eq_true]
      exact ⟨good_parseable v h.1.2, good_parseableMembers rest h.2⟩
termination_by ms _ => sizeOf ms
end

/-- The lexer loop stops cleanly at end of input. -/
theorem lex_loop_end (fuel : Nat) (acc : List Token) :
    lexical_analyze_loop (fuel + 1) [] acc = some (.ok acc) := rfl

/-- Lexing the compact rendering of a good value yields exactly its
canonical token sequence. -/
theorem lexical_analyze_render (v : JsonObject) (hg : good v = true) :
    lexical_analyze (String.mk (do_minimum_output v false)) = some (.ok (tokensOf v)) := by
  have hlen := render_len_val v
  have h1 := lex_tokens_val v [] []
    ((do_minimum_output v false).length + 1 - (tokensOf v).length) hg rfl
  rw [List.append_nil, List.nil_append] at h1
  show lexical_analyze_loop ((do_minimum_output v false).length + 1)
      (do_minimum_output v false) [] = some (.ok (tokensOf v))
  rw [show (do_minimum_output v false).length + 1
      = (tokensOf v).length + ((do_minimum_output v false).length + 1 - (tokensOf v).length)
      from by omega, h1]
  obtain ⟨f, hf⟩ : ∃ f, (do_minimum_output v false).length + 1 - (tokensOf v).length
      = f + 1 :=
    ⟨(do_minimum_output v false).length - (tokensOf v).length, by omega⟩
  rw [hf, lex_loop_end]

/-- C2, counterexample.  The claim asserts the round trip for every value
without NaN/Infinity numbers; the empty array is such a value, its compact
rendering is `[]`, and parsing `[]` does not return it (the parser rejects
empty arrays). -/
theorem c2_counterexample :
    do_minimum_output (.array []) false = "[]".data
      ∧ parse (String.mk (do_minimum_output (.array []) false)) ≠ some (.ok (.array [])) :=
  ⟨rfl, fun h => Except.noConfusion (Option.some.inj h)⟩

/-- C2 (amended): the round trip holds on the class of values the renderer
and the parser can faithfully exchange — every object member list strictly
sorted by key, every array non-empty, every string and key free of `\\` and
`"`, and every number in canonical `f64` form: for such `v`, parsing the
compact uncolored rendering of `v` returns `Ok` of exactly `v`. -/
theorem c2_round_trip (v : JsonObject) (hg : good v = true) :
    parse (String.mk (do_minimum_output v false)) = some (.ok v) := by
  show (match lexical_analyze (String.mk (do_minimum_output v false)) with
    | none => none
    | some (.error e) => some (.error e)
    | some (.ok tokens) => parser_parse_top tokens) = some (.ok v)
  rw [lexical_analyze_render v hg]
  show parser_parse_top (tokensOf v) = some (.ok v)
  have hp := parse_tokens_val v (2 * (tokensOf v).length + 2) []
    (good_parseable v hg) (by omega)
  rw [List.append_nil] at hp
  unfold parser_parse_top
  rw [hp]

/-- C2, witness: the amended round trip at a concrete good value — an
object whose one member holds an array of a fractional number, a string, a
boolean and null. -/
theorem c2_witness :
    good (.object [("a", .array [.number ⟨15, -1⟩, .string "x", .bool true, .null])]) = true
    ∧ parse (String.mk (do_minimum_output
        (.object [("a", .array [.number ⟨15, -1⟩, .string "x", .bool true, .null])]) false))
      = some (.ok (.object [("a", .array [.number ⟨15, -1⟩, .string "x", .bool true, .null])])) :=
  ⟨by decide, c2_round_trip _ (by decide)⟩

end JsonPret
